import Mathlib

/-!
SimpleVector: a shallow embedding of `simple_vector.h` and `array_ptr.h`

Modelling decisions.

* A heap block owned by an `ArrayPtr` is the list of its slots; `nullptr` is `none`.
  Every block has exactly one owner (copying an `ArrayPtr` is deleted in the source),
  so blocks are carried by value and no address space is needed.
* A cursor (`Iterator`, `ConstIterator`) is its offset from `begin()`.
* `size_t` is `Nat`: a capacity that overflows 64 bits cannot be allocated.
  Allocation itself always succeeds.
* Reading or writing a slot outside the allocated block, a failed `assert`, and an
  iterator range whose end precedes its start are undefined behaviour in C++; the
  model reports them as `Fault.undefined`. The exception thrown by `At` is
  `Fault.out_of_range`.
* The element type supplies `Type()` and the state a moved-from object is left in.
  `new Type[n]` is taken to fill the block with `Type()`; for a scalar `Type` the real
  slots are indeterminate until first written, and the statements about elements below
  concern written slots.
* Arguments passed by reference are values: an argument never aliases a slot of the
  vector it is passed to.
-/

/-- The two ways an operation can fail to return normally. -/
inductive Fault where
  | out_of_range
  | undefined
deriving DecidableEq, Repr

deriving instance DecidableEq for Except

/-- The operations the template parameter `Type` has to provide. -/
class Elem (T : Type) where
  /-- The value of `Type()`. -/
  dflt : T
  /-- The state of an object after it has been moved from. -/
  movedFrom : T → T

instance : Elem Nat where
  dflt := 0
  movedFrom := id

/-! ## array_ptr.h -/

/-- Class `ArrayPtr<Type>`: `raw_ptr_` is `nullptr` or the owned block. -/
structure ArrayPtr (T : Type) where
  raw_ptr_ : Option (List T)
deriving DecidableEq, Repr

namespace ArrayPtr

variable {T : Type}

/-- Constructor `ArrayPtr()`. -/
def null : ArrayPtr T := ⟨none⟩

/-- Constructor `ArrayPtr(size_t size)`: no block when `size` is 0, else `new Type[size]`. -/
def alloc [Elem T] (size : Nat) : ArrayPtr T :=
  if size = 0 then null else ⟨some (List.replicate size Elem.dflt)⟩

/-- The slots of the owned block (none for `nullptr`). -/
def cells (a : ArrayPtr T) : List T := a.raw_ptr_.getD []

/-- Number of slots of the owned block. -/
def extent (a : ArrayPtr T) : Nat := a.cells.length

/-- Reading through `operator[]`: `*(raw_ptr_ + index)`. -/
def read (a : ArrayPtr T) (index : Nat) : Except Fault T :=
  match a.cells[index]? with
  | some x => .ok x
  | none => .error .undefined

/-- Assigning through `operator[]`: `*(raw_ptr_ + index) = x`. -/
def write (a : ArrayPtr T) (index : Nat) (x : T) : Except Fault (ArrayPtr T) :=
  match a.raw_ptr_ with
  | some l => if index < l.length then .ok ⟨some (l.set index x)⟩ else .error .undefined
  | none => .error .undefined

/-- Method `swap`. -/
def swap (a other : ArrayPtr T) : ArrayPtr T × ArrayPtr T := (other, a)

/-- Conversion `operator bool`. -/
def toBool (a : ArrayPtr T) : Bool := a.raw_ptr_.isSome

end ArrayPtr

/-! ## The standard algorithms the vector calls -/

section Algorithms

variable {T : Type}

/-- The loop of `std::fill`: `n` slots from `first` receive `value`. -/
def fillLoop (a : ArrayPtr T) (first : Nat) (value : T) : Nat → Except Fault (ArrayPtr T)
  | 0 => pure a
  | n + 1 => do
    let a1 ← a.write first value
    fillLoop a1 (first + 1) value n

/-- `std::copy(init.begin(), init.end(), d_first)` from an initializer list. -/
def copyList (a : ArrayPtr T) (d_first : Nat) : List T → Except Fault (ArrayPtr T)
  | [] => pure a
  | x :: rest => do
    let a1 ← a.write d_first x
    copyList a1 (d_first + 1) rest

/-- The loop of `std::copy` between two blocks: `n` slots of `src` from `first`
are copied to `dst` from `d_first`. -/
def copyLoop (src dst : ArrayPtr T) (first d_first : Nat) : Nat → Except Fault (ArrayPtr T)
  | 0 => pure dst
  | n + 1 => do
    let x ← src.read first
    let dst1 ← dst.write d_first x
    copyLoop src dst1 (first + 1) (d_first + 1) n

/-- The loop of `std::move` between two blocks (also `std::copy` over move iterators):
each source slot is left moved-from. Returns the source and the destination. -/
def moveToLoop [Elem T] (src dst : ArrayPtr T) (first d_first : Nat) :
    Nat → Except Fault (ArrayPtr T × ArrayPtr T)
  | 0 => pure (src, dst)
  | n + 1 => do
    let x ← src.read first
    let src1 ← src.write first (Elem.movedFrom x)
    let dst1 ← dst.write d_first x
    moveToLoop src1 dst1 (first + 1) (d_first + 1) n

/-- The loop of `std::move` inside one block, lowest index first:
`*d_first++ = std::move(*first++)`, `n` times. -/
def moveLoop [Elem T] (a : ArrayPtr T) (first d_first : Nat) : Nat → Except Fault (ArrayPtr T)
  | 0 => pure a
  | n + 1 => do
    let x ← a.read first
    let a1 ← a.write first (Elem.movedFrom x)
    let a2 ← a1.write d_first x
    moveLoop a2 (first + 1) (d_first + 1) n

/-- The loop of `std::move_backward` inside one block, highest index first:
`*(--d_last) = std::move(*(--last))`, `n` times. -/
def moveBackwardLoop [Elem T] (a : ArrayPtr T) (last d_last : Nat) :
    Nat → Except Fault (ArrayPtr T)
  | 0 => pure a
  | n + 1 => do
    let x ← a.read (last - 1)
    let a1 ← a.write (last - 1) (Elem.movedFrom x)
    let a2 ← a1.write (d_last - 1) x
    moveBackwardLoop a2 (last - 1) (d_last - 1) n

/-- `std::move(first, last, d_first)` inside one block. -/
def stdMove [Elem T] (a : ArrayPtr T) (first last d_first : Nat) : Except Fault (ArrayPtr T) :=
  if first > last then .error .undefined else moveLoop a first d_first (last - first)

/-- `std::move_backward(first, last, d_last)` inside one block. -/
def stdMoveBackward [Elem T] (a : ArrayPtr T) (first last d_last : Nat) :
    Except Fault (ArrayPtr T) :=
  if first > last then .error .undefined else moveBackwardLoop a last d_last (last - first)

/-- The loop of `std::equal(first1, last1, first2)`: stops at the first mismatch. -/
def equalLoop [DecidableEq T] (a b : ArrayPtr T) (first1 first2 : Nat) : Nat → Except Fault Bool
  | 0 => pure true
  | n + 1 => do
    let x ← a.read first1
    let y ← b.read first2
    if x = y then equalLoop a b (first1 + 1) (first2 + 1) n else pure false

/-- The loop of `std::lexicographical_compare(first1, last1, first2, last2)` over ranges
of `n1` and `n2` slots: the first position where one element is less decides; if none
does, the first range is less when it ends first. -/
def lexLoop [LT T] [DecidableRel (α := T) (· < ·)] (a b : ArrayPtr T) :
    Nat → Nat → Nat → Nat → Except Fault Bool
  | _, _, 0, n2 => pure (n2 != 0)
  | _, _, _ + 1, 0 => pure false
  | first1, first2, n1 + 1, n2 + 1 => do
    let x ← a.read first1
    let y ← b.read first2
    if x < y then pure true
    else if y < x then pure false
    else lexLoop a b (first1 + 1) (first2 + 1) n1 n2

/-- Dereferencing every cursor of a range of `n` slots that starts at `first`. -/
def readRange (a : ArrayPtr T) (first : Nat) : Nat → Except Fault (List T)
  | 0 => pure []
  | n + 1 => do
    let x ← a.read first
    let rest ← readRange a (first + 1) n
    pure (x :: rest)

end Algorithms

/-! ## simple_vector.h -/

/-- Struct `ReserveProxyObj`. -/
structure ReserveProxyObj where
  reserve_ : Nat := 0
deriving DecidableEq, Repr

/-- The free function `Reserve(capacity_to_reserve)`. -/
def Reserve (capacity_to_reserve : Nat) : ReserveProxyObj := ⟨capacity_to_reserve⟩

/-- Class `SimpleVector<Type>`, its three data members in declaration order. -/
structure SimpleVector (T : Type) where
  size_ : Nat
  capacity_ : Nat
  vector_ : ArrayPtr T
deriving DecidableEq, Repr

namespace SimpleVector

variable {T : Type}

/-- Constructor `SimpleVector()`: the default member initialisers. -/
def empty : SimpleVector T := ⟨0, 0, ArrayPtr.null⟩

/-- Constructor `SimpleVector(size_t size)`. -/
def ofSize [Elem T] (size : Nat) : Except Fault (SimpleVector T) := do
  let buf ← fillLoop (ArrayPtr.alloc size) 0 (Elem.dflt : T) size
  pure ⟨size, size, buf⟩

/-- Constructor `SimpleVector(ReserveProxyObj)`: `vector_` is built from `size_`,
which the initialiser list has just set to 0. -/
def ofReserve [Elem T] (reserve_proxy_obj : ReserveProxyObj) : SimpleVector T :=
  let size_ := 0
  ⟨size_, reserve_proxy_obj.reserve_, ArrayPtr.alloc size_⟩

/-- Constructor `SimpleVector(size_t size, const Type& value)`. -/
def ofSizeValue [Elem T] (size : Nat) (value : T) : Except Fault (SimpleVector T) := do
  let buf ← fillLoop (ArrayPtr.alloc size) 0 value size
  pure ⟨size, size, buf⟩

/-- Constructor `SimpleVector(std::initializer_list<Type> init)`. -/
def ofList [Elem T] (init : List T) : Except Fault (SimpleVector T) := do
  let buf ← copyList (ArrayPtr.alloc init.length) 0 init
  pure ⟨init.length, init.length, buf⟩

/-- Copy constructor: the block is allocated with `other.size_` slots. -/
def copy [Elem T] (other : SimpleVector T) : Except Fault (SimpleVector T) := do
  let buf ← copyLoop other.vector_ (ArrayPtr.alloc other.size_) 0 0 other.size_
  pure ⟨other.size_, other.capacity_, buf⟩

/-- Method `swap`: returns the new `*this` and the new `other`. -/
def swap (self other : SimpleVector T) : SimpleVector T × SimpleVector T :=
  (⟨other.size_, other.capacity_, (self.vector_.swap other.vector_).1⟩,
   ⟨self.size_, self.capacity_, (self.vector_.swap other.vector_).2⟩)

/-- Copy assignment `operator=(const SimpleVector& rhs)`; `same_object` says whether
`this == &rhs`. The temporary is destroyed on return. -/
def copyAssign [Elem T] (self rhs : SimpleVector T) (same_object : Bool) :
    Except Fault (SimpleVector T) :=
  if same_object then pure self
  else do
    let current_vector ← copy rhs
    pure (self.swap current_vector).1

/-- Move constructor: returns the new object and the state left in `other`. -/
def moveCtor (other : SimpleVector T) : SimpleVector T × SimpleVector T :=
  (empty : SimpleVector T).swap other

/-- Move assignment between two distinct objects: returns the new `*this` and the
state left in `rhs`. The temporary is destroyed on return. -/
def moveAssign (self rhs : SimpleVector T) : SimpleVector T × SimpleVector T :=
  let (tmp, rhs1) := moveCtor rhs
  ((self.swap tmp).1, rhs1)

/-- Method `GetSize`. -/
def GetSize (v : SimpleVector T) : Nat := v.size_

/-- Method `GetCapacity`. -/
def GetCapacity (v : SimpleVector T) : Nat := v.capacity_

/-- Method `IsEmpty`. -/
def IsEmpty (v : SimpleVector T) : Bool := if v.size_ ≠ 0 then false else true

/-- Reading `v[index]` through `operator[]`. -/
def get (v : SimpleVector T) (index : Nat) : Except Fault T := v.vector_.read index

/-- The assignment `v[index] = x` through `operator[]`. -/
def set (v : SimpleVector T) (index : Nat) (x : T) : Except Fault (SimpleVector T) := do
  let buf ← v.vector_.write index x
  pure { v with vector_ := buf }

/-- Method `At`. -/
def At (v : SimpleVector T) (index : Nat) : Except Fault T :=
  if index ≥ v.size_ then .error .out_of_range else v.vector_.read index

/-- Method `Clear`. -/
def Clear (v : SimpleVector T) : SimpleVector T := { v with size_ := 0 }

/-- Cursor `begin()`. -/
def begin_ (_v : SimpleVector T) : Nat := 0

/-- Cursor `end()`. -/
def end_ (v : SimpleVector T) : Nat := v.size_

/-- Method `Reserve`: the old block is deleted when `new_vector` goes out of scope. -/
def Reserve [Elem T] (v : SimpleVector T) (capacity : Nat) : Except Fault (SimpleVector T) :=
  if capacity > v.capacity_ then do
    let new_vector : ArrayPtr T := ArrayPtr.alloc capacity
    let (old, new_vector) ← moveToLoop v.vector_ new_vector v.begin_ 0 (v.end_ - v.begin_)
    pure { v with vector_ := (old.swap new_vector).1, capacity_ := capacity }
  else pure v

/-- Method `Resize`. -/
def Resize [Elem T] (v : SimpleVector T) (new_size : Nat) : Except Fault (SimpleVector T) :=
  if new_size < v.size_ ∨ new_size ≤ v.capacity_ then pure { v with size_ := new_size }
  else do
    let v1 ← v.Reserve (max new_size (2 * v.capacity_))
    pure { v1 with size_ := new_size }

/-- Method `PushBack(const Type& item)`. -/
def PushBack [Elem T] (v : SimpleVector T) (item : T) : Except Fault (SimpleVector T) :=
  if v.capacity_ > v.size_ then do
    let buf ← v.vector_.write v.size_ item
    pure { v with vector_ := buf, size_ := v.size_ + 1 }
  else do
    let v1 ← v.Reserve (max 1 (v.capacity_ * 2))
    let buf ← v1.vector_.write v1.size_ item
    pure { v1 with vector_ := buf, size_ := v1.size_ + 1 }

/-- Method `PushBack(Type&& item)`. -/
def PushBackMove [Elem T] (v : SimpleVector T) (item : T) : Except Fault (SimpleVector T) :=
  if v.capacity_ > v.size_ then do
    let buf ← v.vector_.write v.size_ item
    pure { v with vector_ := buf, size_ := v.size_ + 1 }
  else do
    let new_capacity := max 1 (v.capacity_ * 2)
    let new_array_ptr : ArrayPtr T := ArrayPtr.alloc new_capacity
    let (old, new_array_ptr) ← moveToLoop v.vector_ new_array_ptr v.begin_ 0 (v.end_ - v.begin_)
    let new_array_ptr ← new_array_ptr.write v.size_ item
    pure ⟨v.size_ + 1, new_capacity, (new_array_ptr.swap old).2⟩

/-- Method `Insert(ConstIterator pos, const Type& value)`: returns the vector and the
returned cursor. -/
def Insert [Elem T] (v : SimpleVector T) (pos : Nat) (value : T) :
    Except Fault (SimpleVector T × Nat) := do
  let num_pos := pos - v.begin_
  let v1 ←
    if v.size_ < v.capacity_ then
      if pos ≠ v.end_ then do
        let buf ← stdMoveBackward v.vector_ num_pos v.end_ (v.size_ + 1)
        pure { v with vector_ := buf }
      else pure v
    else
      if v.capacity_ = 0 then v.Reserve 1
      else do
        let v2 ← v.Reserve (2 * v.capacity_)
        let buf ← stdMoveBackward v2.vector_ num_pos v2.end_ (v2.size_ + 1)
        pure { v2 with vector_ := buf }
  let buf ← v1.vector_.write num_pos value
  pure ({ v1 with vector_ := buf, size_ := v1.size_ + 1 }, num_pos)

/-- Method `Insert(ConstIterator pos, Type&& value)`. -/
def InsertMove [Elem T] (v : SimpleVector T) (pos : Nat) (value : T) :
    Except Fault (SimpleVector T × Nat) := do
  let num_pos := pos - v.begin_
  let v1 ←
    if v.size_ < v.capacity_ then
      if pos ≠ v.end_ then do
        let buf ← stdMoveBackward v.vector_ num_pos v.end_ (v.size_ + 1)
        pure { v with vector_ := buf }
      else pure v
    else
      if v.capacity_ = 0 then v.Reserve 1
      else do
        let v2 ← v.Reserve (2 * v.capacity_)
        let buf ← stdMoveBackward v2.vector_ num_pos v2.end_ (v2.size_ + 1)
        pure { v2 with vector_ := buf }
  let buf ← v1.vector_.write num_pos value
  pure ({ v1 with vector_ := buf, size_ := v1.size_ + 1 }, num_pos)

/-- Method `PopBack`. -/
def PopBack (v : SimpleVector T) : Except Fault (SimpleVector T) :=
  if v.IsEmpty then .error .undefined else pure { v with size_ := v.size_ - 1 }

/-- Method `Erase`: returns the vector and the returned cursor. -/
def Erase [Elem T] (v : SimpleVector T) (pos : Nat) : Except Fault (SimpleVector T × Nat) :=
  if pos = v.end_ then .error .undefined
  else do
    let res_it := pos - v.begin_
    let buf ← stdMove v.vector_ (res_it + 1) v.end_ res_it
    pure ({ v with vector_ := buf, size_ := v.size_ - 1 }, res_it)

/-- The free `operator==`. -/
def eq [DecidableEq T] (lhs rhs : SimpleVector T) : Except Fault Bool :=
  if lhs.GetSize = rhs.GetSize then
    equalLoop lhs.vector_ rhs.vector_ lhs.begin_ rhs.begin_ (lhs.end_ - lhs.begin_)
  else pure false

/-- The free `operator!=`. -/
def ne [DecidableEq T] (lhs rhs : SimpleVector T) : Except Fault Bool := do
  let r ← eq lhs rhs
  pure (!r)

/-- The logical sequence: the first `size_` slots of the block. -/
def toList (v : SimpleVector T) : List T := v.vector_.cells.take v.size_

/-- What a walk from `begin()` to `end()` reads. -/
def iterate (v : SimpleVector T) : Except Fault (List T) :=
  readRange v.vector_ v.begin_ (v.end_ - v.begin_)

/-- Well-formed: `size_ ≤ capacity_` and the block holds `capacity_` slots. -/
def WF (v : SimpleVector T) : Prop :=
  v.size_ ≤ v.capacity_ ∧ v.vector_.extent = v.capacity_

instance (v : SimpleVector T) : Decidable v.WF :=
  inferInstanceAs (Decidable (v.size_ ≤ v.capacity_ ∧ v.vector_.extent = v.capacity_))

/-- Calling `PushBack(const Type&)` for each item of `xs` in order. -/
def pushAll [Elem T] (v : SimpleVector T) : List T → Except Fault (SimpleVector T)
  | [] => pure v
  | x :: xs => do
    let v1 ← v.PushBack x
    pushAll v1 xs

/-- One call of `PushBack`; the flag picks the `Type&&` overload. -/
def pushBackBy [Elem T] (v : SimpleVector T) (by_move : Bool) (x : T) :
    Except Fault (SimpleVector T) :=
  if by_move then v.PushBackMove x else v.PushBack x

/-- Calling `PushBack` for each item in order, each through the overload its flag picks. -/
def pushAllMixed [Elem T] (v : SimpleVector T) : List (Bool × T) → Except Fault (SimpleVector T)
  | [] => pure v
  | (by_move, x) :: xs => do
    let v1 ← v.pushBackBy by_move x
    pushAllMixed v1 xs

/-- The free `operator<`. -/
def lt [LT T] [DecidableRel (α := T) (· < ·)] (lhs rhs : SimpleVector T) : Except Fault Bool :=
  lexLoop lhs.vector_ rhs.vector_ lhs.begin_ rhs.begin_
    (lhs.end_ - lhs.begin_) (rhs.end_ - rhs.begin_)

/-- The free `operator<=`: `lhs < rhs || lhs == rhs`. -/
def le [LT T] [DecidableRel (α := T) (· < ·)] [DecidableEq T] (lhs rhs : SimpleVector T) :
    Except Fault Bool := do
  let r ← lt lhs rhs
  if r then pure true else eq lhs rhs

/-- The free `operator>`: `!(lhs <= rhs)`. -/
def gt [LT T] [DecidableRel (α := T) (· < ·)] [DecidableEq T] (lhs rhs : SimpleVector T) :
    Except Fault Bool := do
  let r ← le lhs rhs
  pure (!r)

/-- The free `operator>=`: `lhs == rhs || !(lhs < rhs)`. -/
def ge [LT T] [DecidableRel (α := T) (· < ·)] [DecidableEq T] (lhs rhs : SimpleVector T) :
    Except Fault Bool := do
  let r ← eq lhs rhs
  if r then pure true
  else do
    let r1 ← lt lhs rhs
    pure (!r1)

/-- Lexicographic order of two sequences, as the words of the specification have it:
at the first position where the elements differ the lesser element decides, and a
proper beginning of a sequence is less than the sequence. -/
def lexLess [LT T] [DecidableRel (α := T) (· < ·)] : List T → List T → Bool
  | _, [] => false
  | [], _ :: _ => true
  | x :: xs, y :: ys => if x < y then true else if y < x then false else lexLess xs ys

/-- The constructors that take plain arguments. -/
inductive Ctor (T : Type) where
  | dflt
  | sized (size : Nat)
  | reserve (reserve_proxy_obj : ReserveProxyObj)
  | sizedValue (size : Nat) (value : T)
  | list (init : List T)

/-- Running a constructor. -/
def Ctor.run [Elem T] : Ctor T → Except Fault (SimpleVector T)
  | .dflt => pure empty
  | .sized size => ofSize size
  | .reserve r => pure (ofReserve r)
  | .sizedValue size value => ofSizeValue size value
  | .list init => ofList init

/-- The public operations on one vector. -/
inductive Op (T : Type) where
  | Clear
  | Resize (new_size : Nat)
  | Reserve (capacity : Nat)
  | PushBack (item : T)
  | PushBackMove (item : T)
  | Insert (pos : Nat) (value : T)
  | InsertMove (pos : Nat) (value : T)
  | PopBack
  | Erase (pos : Nat)
  | assign (index : Nat) (x : T)

/-- The precondition of an operation: `Insert` takes a cursor in `[begin, end]`, `Erase`
one in `[begin, end)`, `PopBack` a non-empty vector, `v[index] = x` an index below the
size. -/
def Op.pre : Op T → SimpleVector T → Prop
  | .Insert pos _, v => pos ≤ v.size_
  | .InsertMove pos _, v => pos ≤ v.size_
  | .PopBack, v => v.size_ ≠ 0
  | .Erase pos, v => pos < v.size_
  | .assign index _, v => index < v.size_
  | _, _ => True

instance (o : Op T) (v : SimpleVector T) : Decidable (o.pre v) := by
  cases o <;> unfold Op.pre <;> infer_instance

/-- Running an operation; a returned cursor is dropped. -/
def Op.run [Elem T] : Op T → SimpleVector T → Except Fault (SimpleVector T)
  | .Clear, v => pure v.Clear
  | .Resize new_size, v => v.Resize new_size
  | .Reserve capacity, v => v.Reserve capacity
  | .PushBack item, v => v.PushBack item
  | .PushBackMove item, v => v.PushBackMove item
  | .Insert pos value, v => (v.Insert pos value).map Prod.fst
  | .InsertMove pos value, v => (v.InsertMove pos value).map Prod.fst
  | .PopBack, v => v.PopBack
  | .Erase pos, v => (v.Erase pos).map Prod.fst
  | .assign index x, v => v.set index x

/-- The vectors a program can hold: built by a constructor, then changed by public
operations, each called within its precondition and returning normally. -/
inductive Reachable [Elem T] : SimpleVector T → Prop where
  | ctor (c : Ctor T) (w : SimpleVector T) : c.run = .ok w → Reachable w
  | copyCtor (v w : SimpleVector T) : Reachable v → copy v = .ok w → Reachable w
  | moveCtorNew (v : SimpleVector T) : Reachable v → Reachable (moveCtor v).1
  | moveCtorOld (v : SimpleVector T) : Reachable v → Reachable (moveCtor v).2
  | op (o : Op T) (v w : SimpleVector T) : Reachable v → o.pre v → o.run v = .ok w →
      Reachable w
  | swapThis (v u : SimpleVector T) : Reachable v → Reachable u → Reachable (v.swap u).1
  | swapOther (v u : SimpleVector T) : Reachable v → Reachable u → Reachable (v.swap u).2
  | copyAssign (v u w : SimpleVector T) : Reachable v → Reachable u →
      v.copyAssign u false = .ok w → Reachable w
  | moveAssignThis (v u : SimpleVector T) : Reachable v → Reachable u →
      Reachable (v.moveAssign u).1
  | moveAssignOther (v u : SimpleVector T) : Reachable v → Reachable u →
      Reachable (v.moveAssign u).2

/-- The capacity reached after `n` pushes onto a default-constructed vector:
0 for no push, else the least power of two that is at least `n`. -/
def DoubledTo (n c : Nat) : Prop :=
  if n = 0 then c = 0 else ∃ k, c = 2 ^ k ∧ n ≤ 2 ^ k ∧ ∀ m, n ≤ 2 ^ m → k ≤ m

end SimpleVector

/-! ## Slots of a block after a read or a write -/

section BlockLemmas

variable {T : Type}

theorem ArrayPtr.read_of_getElem? {a : ArrayPtr T} {i : Nat} {x : T}
    (h : a.cells[i]? = some x) : a.read i = .ok x := by
  simp [ArrayPtr.read, h]

theorem ArrayPtr.read_of_lt (a : ArrayPtr T) {i : Nat} (h : i < a.extent) :
    ∃ x, a.cells[i]? = some x ∧ a.read i = .ok x := by
  have hi : i < a.cells.length := h
  exact ⟨a.cells[i], List.getElem?_eq_getElem hi,
    ArrayPtr.read_of_getElem? (List.getElem?_eq_getElem hi)⟩

theorem ArrayPtr.read_of_ge (a : ArrayPtr T) {i : Nat} (h : a.extent ≤ i) :
    a.read i = .error .undefined := by
  have hi : a.cells.length ≤ i := h
  simp [ArrayPtr.read, List.getElem?_eq_none hi]

theorem ArrayPtr.write_of_lt (a : ArrayPtr T) {i : Nat} (x : T) (h : i < a.extent) :
    ∃ b, a.write i x = .ok b ∧ b.cells = a.cells.set i x ∧ b.extent = a.extent := by
  cases a with
  | mk p =>
    cases p with
    | none => simp [ArrayPtr.extent, ArrayPtr.cells] at h
    | some l =>
      have hl : i < l.length := by simpa [ArrayPtr.extent, ArrayPtr.cells] using h
      exact ⟨⟨some (l.set i x)⟩, by simp [ArrayPtr.write, hl], by simp [ArrayPtr.cells],
        by simp [ArrayPtr.extent, ArrayPtr.cells]⟩

theorem ArrayPtr.write_of_ge (a : ArrayPtr T) {i : Nat} (x : T) (h : a.extent ≤ i) :
    a.write i x = .error .undefined := by
  cases a with
  | mk p =>
    cases p with
    | none => simp [ArrayPtr.write]
    | some l =>
      have hl : ¬ i < l.length := by
        have : l.length ≤ i := by simpa [ArrayPtr.extent, ArrayPtr.cells] using h
        omega
      simp [ArrayPtr.write, hl]

theorem ArrayPtr.cells_alloc [Elem T] (n : Nat) :
    (ArrayPtr.alloc n : ArrayPtr T).cells = List.replicate n Elem.dflt := by
  unfold ArrayPtr.alloc
  split
  · next h => subst h; simp [ArrayPtr.cells, ArrayPtr.null]
  · simp [ArrayPtr.cells]

theorem ArrayPtr.extent_alloc [Elem T] (n : Nat) :
    (ArrayPtr.alloc n : ArrayPtr T).extent = n := by
  simp [ArrayPtr.extent, ArrayPtr.cells_alloc]

theorem ArrayPtr.extent_eq_length (a : ArrayPtr T) : a.extent = a.cells.length := rfl

end BlockLemmas

/-! ## What the loops leave in the blocks -/

section LoopLemmas

variable {T : Type}

theorem moveToLoop_spec [Elem T] (n : Nat) : ∀ (src dst : ArrayPtr T) (first d : Nat),
    first + n ≤ src.extent → d + n ≤ dst.extent →
    ∃ src1 dst1, moveToLoop src dst first d n = .ok (src1, dst1) ∧ dst1.extent = dst.extent ∧
      ∀ j, dst1.cells[j]? =
        if d ≤ j ∧ j < d + n then src.cells[first + (j - d)]? else dst.cells[j]? := by
  induction n with
  | zero =>
    intro src dst first d _ _
    refine ⟨src, dst, rfl, rfl, ?_⟩
    intro j
    have : ¬ (d ≤ j ∧ j < d + 0) := by omega
    rw [if_neg this]
  | succ n ih =>
    intro src dst first d hs hd
    obtain ⟨x, hx, hr⟩ := src.read_of_lt (i := first) (by omega)
    obtain ⟨s1, hw1, hc1, he1⟩ := src.write_of_lt (Elem.movedFrom x) (i := first) (by omega)
    obtain ⟨d1, hw2, hc2, he2⟩ := dst.write_of_lt x (i := d) (by omega)
    obtain ⟨s2, d2, hrec, hext, hcells⟩ := ih s1 d1 (first + 1) (d + 1) (by omega) (by omega)
    refine ⟨s2, d2, ?_, by omega, ?_⟩
    · simp [moveToLoop, hr, hw1, hw2, hrec, bind, Except.bind]
    · intro j
      have hdl : d < dst.cells.length := by
        have := dst.extent_eq_length; omega
      rw [hcells j, hc1, hc2]
      by_cases h1 : j = d
      · subst h1
        have h2 : ¬ (j + 1 ≤ j ∧ j < j + 1 + n) := by omega
        have h3 : j ≤ j ∧ j < j + (n + 1) := by omega
        rw [if_neg h2, if_pos h3, List.getElem?_set_self hdl, Nat.sub_self, Nat.add_zero, hx]
      · by_cases h2 : d ≤ j ∧ j < d + (n + 1)
        · have h3 : d + 1 ≤ j ∧ j < d + 1 + n := by omega
          have h4 : first ≠ first + 1 + (j - (d + 1)) := by omega
          have h5 : first + 1 + (j - (d + 1)) = first + (j - d) := by omega
          rw [if_pos h2, if_pos h3, List.getElem?_set_ne h4, h5]
        · have h3 : ¬ (d + 1 ≤ j ∧ j < d + 1 + n) := by omega
          have h4 : d ≠ j := fun h => h1 h.symm
          rw [if_neg h2, if_neg h3, List.getElem?_set_ne h4]

theorem moveLoop_spec [Elem T] (n : Nat) : ∀ (a : ArrayPtr T) (i : Nat),
    i + n < a.extent →
    ∃ b, moveLoop a (i + 1) i n = .ok b ∧ b.extent = a.extent ∧
      ∀ j, b.cells[j]? =
        if i ≤ j ∧ j < i + n then a.cells[j + 1]?
        else if j = i + n ∧ 0 < n then (a.cells[j]?).map Elem.movedFrom
        else a.cells[j]? := by
  induction n with
  | zero =>
    intro a i _
    refine ⟨a, rfl, rfl, ?_⟩
    intro j
    have h1 : ¬ (i ≤ j ∧ j < i + 0) := by omega
    have h2 : ¬ (j = i + 0 ∧ 0 < 0) := by omega
    rw [if_neg h1, if_neg h2]
  | succ n ih =>
    intro a i hn
    obtain ⟨x, hx, hr⟩ := a.read_of_lt (i := i + 1) (by omega)
    obtain ⟨a1, hw1, hc1, he1⟩ := a.write_of_lt (Elem.movedFrom x) (i := i + 1) (by omega)
    obtain ⟨a2, hw2, hc2, he2⟩ := a1.write_of_lt x (i := i) (by omega)
    obtain ⟨b, hrec, hext, hcells⟩ := ih a2 (i + 1) (by omega)
    have hlen : i + 1 < a.cells.length := by
      have := a.extent_eq_length; omega
    have hlen1 : i < (a.cells.set (i + 1) (Elem.movedFrom x)).length := by
      rw [List.length_set]; omega
    have hk : ∀ k, a2.cells[k]? =
        if k = i then some x else if k = i + 1 then some (Elem.movedFrom x)
        else a.cells[k]? := by
      intro k
      rw [hc2, hc1]
      by_cases k1 : k = i
      · subst k1
        rw [if_pos rfl, List.getElem?_set_self hlen1]
      · by_cases k2 : k = i + 1
        · subst k2
          have : i ≠ i + 1 := by omega
          rw [if_neg k1, if_pos rfl, List.getElem?_set_ne this, List.getElem?_set_self hlen]
        · have e1 : i ≠ k := fun h => k1 h.symm
          have e2 : i + 1 ≠ k := fun h => k2 h.symm
          rw [if_neg k1, if_neg k2, List.getElem?_set_ne e1, List.getElem?_set_ne e2]
    refine ⟨b, ?_, by omega, ?_⟩
    · simp [moveLoop, hr, hw1, hw2, hrec, bind, Except.bind]
    · intro j
      rw [hcells j]
      by_cases c1 : j = i
      · subst c1
        have h1 : ¬ (j + 1 ≤ j ∧ j < j + 1 + n) := by omega
        have h2 : ¬ (j = j + 1 + n ∧ 0 < n) := by omega
        have h3 : j ≤ j ∧ j < j + (n + 1) := by omega
        rw [if_neg h1, if_neg h2, if_pos h3, hk j, if_pos rfl, hx]
      · by_cases c2 : i + 1 ≤ j ∧ j < i + 1 + n
        · have h3 : i ≤ j ∧ j < i + (n + 1) := by omega
          have k1 : ¬ (j + 1 = i) := by omega
          have k2 : ¬ (j + 1 = i + 1) := by omega
          rw [if_pos c2, if_pos h3, hk (j + 1), if_neg k1, if_neg k2]
        · have h3 : ¬ (i ≤ j ∧ j < i + (n + 1)) := by omega
          rw [if_neg c2, if_neg h3]
          by_cases c3 : j = i + 1 + n
          · have t2 : j = i + (n + 1) ∧ 0 < n + 1 := by omega
            rw [if_pos t2]
            by_cases c4 : 0 < n
            · have k2 : ¬ (j = i + 1) := by omega
              rw [if_pos ⟨c3, c4⟩, hk j, if_neg c1, if_neg k2]
            · have k2 : j = i + 1 := by omega
              have h4 : ¬ (j = i + 1 + n ∧ 0 < n) := by omega
              rw [if_neg h4, hk j, if_neg c1, if_pos k2, k2, hx]
              rfl
          · have t2 : ¬ (j = i + (n + 1) ∧ 0 < n + 1) := by omega
            have h4 : ¬ (j = i + 1 + n ∧ 0 < n) := by omega
            have k2 : ¬ (j = i + 1) := by omega
            rw [if_neg t2, if_neg h4, hk j, if_neg c1, if_neg k2]

theorem moveBackwardLoop_spec [Elem T] (n : Nat) : ∀ (a : ArrayPtr T) (i : Nat),
    i + n < a.extent →
    ∃ b, moveBackwardLoop a (i + n) (i + n + 1) n = .ok b ∧ b.extent = a.extent ∧
      ∀ j, b.cells[j]? =
        if i < j ∧ j ≤ i + n then a.cells[j - 1]?
        else if j = i ∧ 0 < n then (a.cells[j]?).map Elem.movedFrom
        else a.cells[j]? := by
  induction n with
  | zero =>
    intro a i _
    refine ⟨a, rfl, rfl, ?_⟩
    intro j
    have h1 : ¬ (i < j ∧ j ≤ i + 0) := by omega
    have h2 : ¬ (j = i ∧ 0 < 0) := by omega
    rw [if_neg h1, if_neg h2]
  | succ n ih =>
    intro a i hn
    obtain ⟨x, hx, hr⟩ := a.read_of_lt (i := i + n) (by omega)
    obtain ⟨a1, hw1, hc1, he1⟩ := a.write_of_lt (Elem.movedFrom x) (i := i + n) (by omega)
    obtain ⟨a2, hw2, hc2, he2⟩ := a1.write_of_lt x (i := i + n + 1) (by omega)
    obtain ⟨b, hrec, hext, hcells⟩ := ih a2 i (by omega)
    have hlen : i + n < a.cells.length := by
      have := a.extent_eq_length; omega
    have hlen1 : i + n + 1 < (a.cells.set (i + n) (Elem.movedFrom x)).length := by
      have := a.extent_eq_length
      rw [List.length_set]; omega
    have hk : ∀ k, a2.cells[k]? =
        if k = i + n + 1 then some x else if k = i + n then some (Elem.movedFrom x)
        else a.cells[k]? := by
      intro k
      rw [hc2, hc1]
      by_cases k1 : k = i + n + 1
      · subst k1
        rw [if_pos rfl, List.getElem?_set_self hlen1]
      · by_cases k2 : k = i + n
        · subst k2
          have : i + n + 1 ≠ i + n := by omega
          rw [if_neg k1, if_pos rfl, List.getElem?_set_ne this, List.getElem?_set_self hlen]
        · have e1 : i + n + 1 ≠ k := fun h => k1 h.symm
          have e2 : i + n ≠ k := fun h => k2 h.symm
          rw [if_neg k1, if_neg k2, List.getElem?_set_ne e1, List.getElem?_set_ne e2]
    refine ⟨b, ?_, by omega, ?_⟩
    · have e1 : i + (n + 1) - 1 = i + n := by omega
      have e2 : i + (n + 1) + 1 - 1 = i + n + 1 := by omega
      simp only [moveBackwardLoop, e1, e2, hr, hw1, hw2, hrec, bind, Except.bind]
    · intro j
      rw [hcells j]
      by_cases c1 : j = i + n + 1
      · subst c1
        have h1 : ¬ (i < i + n + 1 ∧ i + n + 1 ≤ i + n) := by omega
        have h2 : ¬ (i + n + 1 = i ∧ 0 < n) := by omega
        have h3 : i < i + n + 1 ∧ i + n + 1 ≤ i + (n + 1) := by omega
        rw [if_neg h1, if_neg h2, if_pos h3, hk (i + n + 1), if_pos rfl, Nat.add_sub_cancel, hx]
      · by_cases c2 : i < j ∧ j ≤ i + n
        · have h3 : i < j ∧ j ≤ i + (n + 1) := by omega
          have k1 : ¬ (j - 1 = i + n + 1) := by omega
          have k2 : ¬ (j - 1 = i + n) := by omega
          rw [if_pos c2, if_pos h3, hk (j - 1), if_neg k1, if_neg k2]
        · have h3 : ¬ (i < j ∧ j ≤ i + (n + 1)) := by omega
          rw [if_neg c2, if_neg h3]
          by_cases c3 : j = i
          · have t2 : j = i ∧ 0 < n + 1 := by omega
            rw [if_pos t2]
            by_cases c4 : 0 < n
            · have k2 : ¬ (j = i + n) := by omega
              rw [if_pos ⟨c3, c4⟩, hk j, if_neg c1, if_neg k2]
            · have k2 : j = i + n := by omega
              have h4 : ¬ (j = i ∧ 0 < n) := by omega
              rw [if_neg h4, hk j, if_neg c1, if_pos k2, k2, hx]
              rfl
          · have t2 : ¬ (j = i ∧ 0 < n + 1) := by omega
            have h4 : ¬ (j = i ∧ 0 < n) := by omega
            have k2 : ¬ (j = i + n) := by omega
            rw [if_neg t2, if_neg h4, hk j, if_neg c1, if_neg k2]

theorem copyLoop_spec (n : Nat) : ∀ (src dst : ArrayPtr T) (first d : Nat),
    first + n ≤ src.extent → d + n ≤ dst.extent →
    ∃ dst1, copyLoop src dst first d n = .ok dst1 ∧ dst1.extent = dst.extent ∧
      ∀ j, dst1.cells[j]? =
        if d ≤ j ∧ j < d + n then src.cells[first + (j - d)]? else dst.cells[j]? := by
  induction n with
  | zero =>
    intro src dst first d _ _
    refine ⟨dst, rfl, rfl, ?_⟩
    intro j
    have : ¬ (d ≤ j ∧ j < d + 0) := by omega
    rw [if_neg this]
  | succ n ih =>
    intro src dst first d hs hd
    obtain ⟨x, hx, hr⟩ := src.read_of_lt (i := first) (by omega)
    obtain ⟨d1, hw2, hc2, he2⟩ := dst.write_of_lt x (i := d) (by omega)
    obtain ⟨d2, hrec, hext, hcells⟩ := ih src d1 (first + 1) (d + 1) (by omega) (by omega)
    refine ⟨d2, ?_, by omega, ?_⟩
    · simp [copyLoop, hr, hw2, hrec, bind, Except.bind]
    · intro j
      have hdl : d < dst.cells.length := by
        have := dst.extent_eq_length; omega
      rw [hcells j, hc2]
      by_cases h1 : j = d
      · subst h1
        have h2 : ¬ (j + 1 ≤ j ∧ j < j + 1 + n) := by omega
        have h3 : j ≤ j ∧ j < j + (n + 1) := by omega
        rw [if_neg h2, if_pos h3, List.getElem?_set_self hdl, Nat.sub_self, Nat.add_zero, hx]
      · by_cases h2 : d ≤ j ∧ j < d + (n + 1)
        · have h3 : d + 1 ≤ j ∧ j < d + 1 + n := by omega
          have h5 : first + 1 + (j - (d + 1)) = first + (j - d) := by omega
          rw [if_pos h2, if_pos h3, h5]
        · have h3 : ¬ (d + 1 ≤ j ∧ j < d + 1 + n) := by omega
          have h4 : d ≠ j := fun h => h1 h.symm
          rw [if_neg h2, if_neg h3, List.getElem?_set_ne h4]

theorem copyList_spec (init : List T) : ∀ (a : ArrayPtr T) (d : Nat),
    d + init.length ≤ a.extent →
    ∃ b, copyList a d init = .ok b ∧ b.extent = a.extent ∧
      ∀ j, b.cells[j]? =
        if d ≤ j ∧ j < d + init.length then init[j - d]? else a.cells[j]? := by
  induction init with
  | nil =>
    intro a d _
    refine ⟨a, rfl, rfl, ?_⟩
    intro j
    have : ¬ (d ≤ j ∧ j < d + ([] : List T).length) := by simp
    rw [if_neg this]
  | cons x rest ih =>
    intro a d hd
    have hlen : (x :: rest).length = rest.length + 1 := rfl
    obtain ⟨a1, hw, hc, he⟩ := a.write_of_lt x (i := d) (by omega)
    obtain ⟨b, hrec, hext, hcells⟩ := ih a1 (d + 1) (by omega)
    refine ⟨b, ?_, by omega, ?_⟩
    · simp [copyList, hw, hrec, bind, Except.bind]
    · intro j
      have hdl : d < a.cells.length := by
        have := a.extent_eq_length; omega
      rw [hcells j, hc]
      by_cases h1 : j = d
      · subst h1
        have h2 : ¬ (j + 1 ≤ j ∧ j < j + 1 + rest.length) := by omega
        have h3 : j ≤ j ∧ j < j + (x :: rest).length := by omega
        rw [if_neg h2, if_pos h3, List.getElem?_set_self hdl, Nat.sub_self]
        simp
      · by_cases h2 : d ≤ j ∧ j < d + (x :: rest).length
        · have h3 : d + 1 ≤ j ∧ j < d + 1 + rest.length := by omega
          have h5 : j - d = (j - (d + 1)) + 1 := by omega
          rw [if_pos h2, if_pos h3, h5]
          simp
        · have h3 : ¬ (d + 1 ≤ j ∧ j < d + 1 + rest.length) := by omega
          have h4 : d ≠ j := fun h => h1 h.symm
          rw [if_neg h2, if_neg h3, List.getElem?_set_ne h4]

theorem fillLoop_spec (value : T) (n : Nat) : ∀ (a : ArrayPtr T) (d : Nat),
    d + n ≤ a.extent →
    ∃ b, fillLoop a d value n = .ok b ∧ b.extent = a.extent ∧
      ∀ j, b.cells[j]? = if d ≤ j ∧ j < d + n then some value else a.cells[j]? := by
  induction n with
  | zero =>
    intro a d _
    refine ⟨a, rfl, rfl, ?_⟩
    intro j
    have : ¬ (d ≤ j ∧ j < d + 0) := by omega
    rw [if_neg this]
  | succ n ih =>
    intro a d hd
    obtain ⟨a1, hw, hc, he⟩ := a.write_of_lt value (i := d) (by omega)
    obtain ⟨b, hrec, hext, hcells⟩ := ih a1 (d + 1) (by omega)
    refine ⟨b, ?_, by omega, ?_⟩
    · simp [fillLoop, hw, hrec, bind, Except.bind]
    · intro j
      have hdl : d < a.cells.length := by
        have := a.extent_eq_length; omega
      rw [hcells j, hc]
      by_cases h1 : j = d
      · subst h1
        have h2 : ¬ (j + 1 ≤ j ∧ j < j + 1 + n) := by omega
        have h3 : j ≤ j ∧ j < j + (n + 1) := by omega
        rw [if_neg h2, if_pos h3, List.getElem?_set_self hdl]
      · by_cases h2 : d ≤ j ∧ j < d + (n + 1)
        · have h3 : d + 1 ≤ j ∧ j < d + 1 + n := by omega
          rw [if_pos h2, if_pos h3]
        · have h3 : ¬ (d + 1 ≤ j ∧ j < d + 1 + n) := by omega
          have h4 : d ≠ j := fun h => h1 h.symm
          rw [if_neg h2, if_neg h3, List.getElem?_set_ne h4]

theorem readRange_spec (a : ArrayPtr T) (n : Nat) : ∀ (first : Nat),
    first + n ≤ a.extent →
    readRange a first n = .ok ((a.cells.drop first).take n) := by
  induction n with
  | zero => intro first _; simp [readRange, pure, Except.pure]
  | succ n ih =>
    intro first h
    obtain ⟨x, hx, hr⟩ := a.read_of_lt (i := first) (by omega)
    have hl : first < a.cells.length := by
      have := a.extent_eq_length; omega
    have hd : a.cells.drop first = x :: a.cells.drop (first + 1) := by
      have hx1 : a.cells[first] = x := by
        have := List.getElem?_eq_getElem hl
        rw [hx] at this
        exact (Option.some.inj this).symm
      rw [← hx1]
      exact List.drop_eq_getElem_cons hl
    simp [readRange, hr, ih (first + 1) (by omega), bind, Except.bind, pure, Except.pure, hd]

theorem equalLoop_self [DecidableEq T] (a b : ArrayPtr T) (n : Nat) : ∀ (i : Nat),
    i + n ≤ a.extent → i + n ≤ b.extent →
    (∀ j, i ≤ j → j < i + n → a.cells[j]? = b.cells[j]?) →
    equalLoop a b i i n = .ok true := by
  induction n with
  | zero => intro i _ _ _; rfl
  | succ n ih =>
    intro i ha hb h
    obtain ⟨x, hx, hr⟩ := a.read_of_lt (i := i) (by omega)
    have hy : b.read i = .ok x := by
      apply ArrayPtr.read_of_getElem?
      rw [← h i (by omega) (by omega)]
      exact hx
    have hrec := ih (i + 1) (by omega) (by omega)
      (fun j h1 h2 => h j (by omega) (by omega))
    simp [equalLoop, hr, hy, hrec, bind, Except.bind]

end LoopLemmas

/-! ## What the operations do to a well-formed vector -/

namespace SimpleVector

variable {T : Type}

theorem toList_getElem? (v : SimpleVector T) (j : Nat) :
    v.toList[j]? = if j < v.size_ then v.vector_.cells[j]? else none := by
  unfold toList
  exact List.getElem?_take

theorem length_toList (v : SimpleVector T) (h : v.size_ ≤ v.vector_.extent) :
    v.toList.length = v.size_ := by
  unfold toList
  rw [List.length_take]
  have := v.vector_.extent_eq_length
  omega

theorem WF.size_le_extent {v : SimpleVector T} (h : v.WF) : v.size_ ≤ v.vector_.extent := by
  have h1 := h.1
  have h2 := h.2
  omega

theorem wf_empty : (empty : SimpleVector T).WF := by
  constructor
  · exact Nat.le_refl 0
  · rfl

theorem Reserve_noop [Elem T] (v : SimpleVector T) (capacity : Nat)
    (h : capacity ≤ v.capacity_) : v.Reserve capacity = .ok v := by
  have : ¬ capacity > v.capacity_ := by omega
  simp [Reserve, this, pure, Except.pure]

theorem Reserve_grow [Elem T] (v : SimpleVector T) (capacity : Nat)
    (hs : v.size_ ≤ v.vector_.extent) (hc : v.size_ ≤ capacity) (h : v.capacity_ < capacity) :
    ∃ w, v.Reserve capacity = .ok w ∧ w.size_ = v.size_ ∧ w.capacity_ = capacity ∧
      w.vector_.extent = capacity ∧
      ∀ j, w.vector_.cells[j]? =
        if j < v.size_ then v.vector_.cells[j]?
        else if j < capacity then some Elem.dflt else none := by
  obtain ⟨s1, d1, hm, he, hcells⟩ := moveToLoop_spec v.size_ v.vector_
    (ArrayPtr.alloc capacity) 0 0 (by omega) (by rw [ArrayPtr.extent_alloc]; omega)
  refine ⟨{ v with vector_ := d1, capacity_ := capacity }, ?_, rfl, rfl, ?_, ?_⟩
  · have hgt : capacity > v.capacity_ := h
    simp [Reserve, hgt, begin_, end_, hm, bind, Except.bind, pure, Except.pure, ArrayPtr.swap]
  · rw [he, ArrayPtr.extent_alloc]
  · intro j
    show d1.cells[j]? = _
    rw [hcells j, ArrayPtr.cells_alloc, List.getElem?_replicate]
    by_cases h1 : j < v.size_
    · have h2 : 0 ≤ j ∧ j < 0 + v.size_ := by omega
      rw [if_pos h1, if_pos h2, Nat.sub_zero, Nat.zero_add]
    · have h2 : ¬ (0 ≤ j ∧ j < 0 + v.size_) := by omega
      rw [if_neg h1, if_neg h2]

theorem Reserve_grow_toList [Elem T] (v w : SimpleVector T)
    (hsz : w.size_ = v.size_)
    (hcells : ∀ j, j < v.size_ → w.vector_.cells[j]? = v.vector_.cells[j]?) :
    w.toList = v.toList := by
  apply List.ext_getElem?
  intro j
  rw [toList_getElem?, toList_getElem?, hsz]
  by_cases h : j < v.size_
  · rw [if_pos h, if_pos h, hcells j h]
  · rw [if_neg h, if_neg h]

theorem toList_snoc (v w : SimpleVector T) (item : T)
    (hs : v.size_ ≤ v.vector_.extent) (hsz : w.size_ = v.size_ + 1)
    (hcells : ∀ j, j < v.size_ → w.vector_.cells[j]? = v.vector_.cells[j]?)
    (hlast : w.vector_.cells[v.size_]? = some item) :
    w.toList = v.toList ++ [item] := by
  apply List.ext_getElem?
  intro j
  rw [toList_getElem?, List.getElem?_append, length_toList v hs, toList_getElem?, hsz]
  by_cases h1 : j < v.size_
  · have h2 : j < v.size_ + 1 := by omega
    rw [if_pos h1, if_pos h2, if_pos h1, hcells j h1]
  · by_cases h3 : j = v.size_
    · subst h3
      have h2 : v.size_ < v.size_ + 1 := by omega
      rw [if_neg h1, if_pos h2, hlast, Nat.sub_self]
      rfl
    · have h2 : ¬ j < v.size_ + 1 := by omega
      have h4 : ([item] : List T).length ≤ j - v.size_ := by
        simp only [List.length_singleton]; omega
      rw [if_neg h1, if_neg h2, List.getElem?_eq_none h4]

theorem write_end_spec (v : SimpleVector T) (item : T)
    (hs : v.size_ < v.vector_.extent) :
    ∃ buf, v.vector_.write v.size_ item = .ok buf ∧ buf.extent = v.vector_.extent ∧
      (∀ j, j < v.size_ → buf.cells[j]? = v.vector_.cells[j]?) ∧
      buf.cells[v.size_]? = some item := by
  obtain ⟨buf, hw, hc, he⟩ := v.vector_.write_of_lt item hs
  have hl : v.size_ < v.vector_.cells.length := hs
  refine ⟨buf, hw, he, ?_, ?_⟩
  · intro j hj
    have : v.size_ ≠ j := by omega
    rw [hc, List.getElem?_set_ne this]
  · rw [hc, List.getElem?_set_self hl]

theorem PushBack_spec [Elem T] (v : SimpleVector T) (item : T) (h : v.WF) :
    ∃ w, v.PushBack item = .ok w ∧ w.WF ∧ w.size_ = v.size_ + 1 ∧
      w.capacity_ = (if v.size_ < v.capacity_ then v.capacity_ else max 1 (v.capacity_ * 2)) ∧
      w.toList = v.toList ++ [item] := by
  obtain ⟨h1, h2⟩ := h
  by_cases hc : v.size_ < v.capacity_
  · obtain ⟨buf, hw, he, hlow, hlast⟩ := write_end_spec v item (by omega)
    refine ⟨{ v with vector_ := buf, size_ := v.size_ + 1 }, ?_, ?_, rfl, ?_, ?_⟩
    · have hgt : v.capacity_ > v.size_ := hc
      simp [PushBack, hgt, hw, bind, Except.bind, pure, Except.pure]
    · exact ⟨by show v.size_ + 1 ≤ v.capacity_; omega, by show buf.extent = v.capacity_; omega⟩
    · rw [if_pos hc]
    · exact toList_snoc v _ item (by omega) rfl hlow hlast
  · have hmax : v.capacity_ < max 1 (v.capacity_ * 2) := by omega
    obtain ⟨v1, hr, hsz, hcap, hext, hcells⟩ :=
      Reserve_grow v (max 1 (v.capacity_ * 2)) (by omega) (by omega) hmax
    obtain ⟨buf, hw, he, hlow, hlast⟩ := write_end_spec v1 item (by omega)
    refine ⟨{ v1 with vector_ := buf, size_ := v1.size_ + 1 }, ?_, ?_, ?_, ?_, ?_⟩
    · have hgt : ¬ v.capacity_ > v.size_ := by omega
      simp [PushBack, hgt, hr, hw, bind, Except.bind, pure, Except.pure]
    · exact ⟨by show v1.size_ + 1 ≤ v1.capacity_; omega, by show buf.extent = v1.capacity_; omega⟩
    · show v1.size_ + 1 = v.size_ + 1
      omega
    · rw [if_neg hc]
      exact hcap
    · apply toList_snoc v _ item (by omega)
      · show v1.size_ + 1 = v.size_ + 1
        omega
      · intro j hj
        show buf.cells[j]? = _
        rw [hlow j (by omega), hcells j, if_pos hj]
      · show buf.cells[v.size_]? = _
        rw [← hsz]
        exact hlast

theorem PushBackMove_spec [Elem T] (v : SimpleVector T) (item : T) (h : v.WF) :
    ∃ w, v.PushBackMove item = .ok w ∧ w.WF ∧ w.size_ = v.size_ + 1 ∧
      w.capacity_ = (if v.size_ < v.capacity_ then v.capacity_ else max 1 (v.capacity_ * 2)) ∧
      w.toList = v.toList ++ [item] := by
  obtain ⟨h1, h2⟩ := h
  by_cases hc : v.size_ < v.capacity_
  · obtain ⟨buf, hw, he, hlow, hlast⟩ := write_end_spec v item (by omega)
    refine ⟨{ v with vector_ := buf, size_ := v.size_ + 1 }, ?_, ?_, rfl, ?_, ?_⟩
    · have hgt : v.capacity_ > v.size_ := hc
      simp [PushBackMove, hgt, hw, bind, Except.bind, pure, Except.pure]
    · exact ⟨by show v.size_ + 1 ≤ v.capacity_; omega, by show buf.extent = v.capacity_; omega⟩
    · rw [if_pos hc]
    · exact toList_snoc v _ item (by omega) rfl hlow hlast
  · have hmax : v.capacity_ < max 1 (v.capacity_ * 2) := by omega
    obtain ⟨s1, d1, hm, hde, hcells⟩ := moveToLoop_spec v.size_ v.vector_
      (ArrayPtr.alloc (max 1 (v.capacity_ * 2))) 0 0 (by omega)
      (by rw [ArrayPtr.extent_alloc]; omega)
    rw [ArrayPtr.extent_alloc] at hde
    obtain ⟨buf, hw, hc2, he⟩ := d1.write_of_lt item (i := v.size_) (by omega)
    have hl : v.size_ < d1.cells.length := by
      have := d1.extent_eq_length; omega
    refine ⟨⟨v.size_ + 1, max 1 (v.capacity_ * 2), buf⟩, ?_, ?_, rfl, ?_, ?_⟩
    · have hgt : ¬ v.capacity_ > v.size_ := by omega
      simp [PushBackMove, hgt, begin_, end_, hm, hw, bind, Except.bind, pure, Except.pure,
        ArrayPtr.swap]
    · exact ⟨by show v.size_ + 1 ≤ max 1 (v.capacity_ * 2); omega,
        by show buf.extent = max 1 (v.capacity_ * 2); omega⟩
    · rw [if_neg hc]
    · apply toList_snoc v _ item (by omega) rfl
      · intro j hj
        show buf.cells[j]? = _
        have hne : v.size_ ≠ j := by omega
        have hin : 0 ≤ j ∧ j < 0 + v.size_ := by omega
        rw [hc2, List.getElem?_set_ne hne, hcells j, if_pos hin, Nat.sub_zero, Nat.zero_add]
      · show buf.cells[v.size_]? = _
        rw [hc2, List.getElem?_set_self hl]

theorem iterate_eq_toList (v : SimpleVector T) (h : v.size_ ≤ v.vector_.extent) :
    v.iterate = .ok v.toList := by
  unfold iterate toList begin_ end_
  rw [Nat.sub_zero, readRange_spec v.vector_ v.size_ 0 (by omega), List.drop_zero]

theorem pushAll_spec [Elem T] (xs : List T) : ∀ (v : SimpleVector T), v.WF →
    ∃ w, v.pushAll xs = .ok w ∧ w.WF ∧ w.size_ = v.size_ + xs.length ∧
      w.toList = v.toList ++ xs := by
  induction xs with
  | nil =>
    intro v h
    exact ⟨v, rfl, h, rfl, by simp⟩
  | cons x xs ih =>
    intro v h
    obtain ⟨v1, hp, hwf, hsz, _, hl⟩ := PushBack_spec v x h
    obtain ⟨w, hw, hwf2, hsz2, hl2⟩ := ih v1 hwf
    refine ⟨w, ?_, hwf2, ?_, ?_⟩
    · simp [pushAll, hp, hw, bind, Except.bind]
    · rw [hsz2, hsz, List.length_cons]; omega
    · rw [hl2, hl, List.append_assoc]; rfl

theorem doubledTo_step (n c : Nat) (h : DoubledTo n c) (hle : n ≤ c) :
    DoubledTo (n + 1) (if n < c then c else max 1 (c * 2)) := by
  unfold DoubledTo at h ⊢
  rw [if_neg (Nat.succ_ne_zero n)]
  by_cases hn : n = 0
  · subst hn
    rw [if_pos rfl] at h
    subst h
    refine ⟨0, by decide, by decide, fun m _ => Nat.zero_le m⟩
  · rw [if_neg hn] at h
    obtain ⟨k, hk, hnk, hleast⟩ := h
    by_cases hlt : n < c
    · rw [if_pos hlt]
      exact ⟨k, hk, by omega, fun m hm => hleast m (by omega)⟩
    · rw [if_neg hlt]
      have hnc : n = c := by omega
      have hpos : 1 ≤ 2 ^ k := Nat.one_le_two_pow
      have h2 : max 1 (c * 2) = 2 ^ (k + 1) := by
        rw [pow_succ, ← hk]; omega
      refine ⟨k + 1, h2, by rw [pow_succ, ← hk]; omega, ?_⟩
      intro m hm
      have hlt2 : 2 ^ k < 2 ^ m := by omega
      have := (Nat.pow_lt_pow_iff_right (by decide : 1 < 2)).mp hlt2
      omega

theorem pushAllMixed_spec [Elem T] (ps : List (Bool × T)) : ∀ (v : SimpleVector T), v.WF →
    DoubledTo v.size_ v.capacity_ →
    ∃ w, v.pushAllMixed ps = .ok w ∧ w.WF ∧ w.size_ = v.size_ + ps.length ∧
      DoubledTo w.size_ w.capacity_ ∧ v.capacity_ ≤ w.capacity_ ∧
      w.toList = v.toList ++ ps.map Prod.snd := by
  induction ps with
  | nil =>
    intro v h hd
    exact ⟨v, rfl, h, rfl, hd, Nat.le_refl _, by simp⟩
  | cons p ps ih =>
    intro v h hd
    obtain ⟨by_move, x⟩ := p
    have hstep : ∃ v1, v.pushBackBy by_move x = .ok v1 ∧
        v1.WF ∧ v1.size_ = v.size_ + 1 ∧
        v1.capacity_ = (if v.size_ < v.capacity_ then v.capacity_ else max 1 (v.capacity_ * 2)) ∧
        v1.toList = v.toList ++ [x] := by
      cases by_move
      · exact PushBack_spec v x h
      · exact PushBackMove_spec v x h
    obtain ⟨v1, hp, hwf, hsz, hcap, hl⟩ := hstep
    have hd1 : DoubledTo v1.size_ v1.capacity_ := by
      rw [hsz, hcap]
      exact doubledTo_step _ _ hd h.1
    have hmono : v.capacity_ ≤ v1.capacity_ := by
      rw [hcap]
      split <;> omega
    obtain ⟨w, hw, hwf2, hsz2, hd2, hm2, hl2⟩ := ih v1 hwf hd1
    refine ⟨w, ?_, hwf2, ?_, hd2, by omega, ?_⟩
    · simp only [pushAllMixed, bind, Except.bind, hp, hw]
    · rw [hsz2, hsz, List.length_cons]; omega
    · rw [hl2, hl, List.append_assoc]; rfl

theorem pushAllMixed_append [Elem T] (ps qs : List (Bool × T)) : ∀ (v : SimpleVector T),
    v.pushAllMixed (ps ++ qs) = (v.pushAllMixed ps >>= fun w => w.pushAllMixed qs) := by
  induction ps with
  | nil => intro v; rfl
  | cons p ps ih =>
    intro v
    obtain ⟨by_move, x⟩ := p
    simp only [List.cons_append, pushAllMixed, bind, Except.bind]
    cases v.pushBackBy by_move x with
    | error e => rfl
    | ok v1 => exact ih v1

theorem shift_write [Elem T] (a : ArrayPtr T) (i size : Nat) (x : T)
    (hi : i ≤ size) (hs : size < a.extent) :
    ∃ b buf, stdMoveBackward a i size (size + 1) = .ok b ∧ b.write i x = .ok buf ∧
      buf.extent = a.extent ∧
      ∀ j, j ≤ size → buf.cells[j]? =
        if j < i then a.cells[j]? else if j = i then some x else a.cells[j - 1]? := by
  obtain ⟨b, hb, hbe, hbc⟩ := moveBackwardLoop_spec (size - i) a i (by omega)
  have e1 : i + (size - i) = size := by omega
  rw [e1] at hb
  obtain ⟨buf, hw, hc, he⟩ := b.write_of_lt x (i := i) (by omega)
  have hl : i < b.cells.length := by
    have := b.extent_eq_length; omega
  refine ⟨b, buf, ?_, hw, by omega, ?_⟩
  · have : ¬ i > size := by omega
    simp only [stdMoveBackward, this, if_false]
    exact hb
  · intro j hj
    rw [hc]
    by_cases c1 : j = i
    · subst c1
      have : ¬ j < j := by omega
      rw [if_neg this, if_pos rfl, List.getElem?_set_self hl]
    · have hne : i ≠ j := fun h => c1 h.symm
      rw [List.getElem?_set_ne hne, hbc j, e1, if_neg c1]
      have c2 : ¬ (j = i ∧ 0 < size - i) := by omega
      by_cases c3 : j < i
      · have c4 : ¬ (i < j ∧ j ≤ size) := by omega
        rw [if_pos c3, if_neg c4, if_neg c2]
      · have c4 : i < j ∧ j ≤ size := by omega
        rw [if_neg c3, if_pos c4]

theorem stdMoveBackward_empty [Elem T] (a : ArrayPtr T) (size d : Nat) :
    stdMoveBackward a size size d = .ok a := by
  have : ¬ size > size := by omega
  simp [stdMoveBackward, this, moveBackwardLoop, pure, Except.pure]

theorem toList_insert (v w : SimpleVector T) (i : Nat) (x : T)
    (hs : v.size_ ≤ v.vector_.extent) (hi : i ≤ v.size_) (hsz : w.size_ = v.size_ + 1)
    (hcells : ∀ j, j ≤ v.size_ → w.vector_.cells[j]? =
      if j < i then v.vector_.cells[j]? else if j = i then some x
      else v.vector_.cells[j - 1]?) :
    w.toList = v.toList.take i ++ [x] ++ v.toList.drop i := by
  have hlen := length_toList v hs
  have hlt : (v.toList.take i).length = i := by
    rw [List.length_take]; omega
  apply List.ext_getElem?
  intro j
  rw [toList_getElem?, hsz, List.append_assoc, List.getElem?_append, hlt, List.getElem?_take]
  by_cases c1 : j < i
  · have c2 : j < v.size_ + 1 := by omega
    have c3 : j < v.size_ := by omega
    rw [if_pos c2, if_pos c1, if_pos c1, hcells j (by omega), if_pos c1, toList_getElem?,
      if_pos c3]
  · rw [if_neg c1]
    by_cases c4 : j = i
    · subst c4
      have c2 : j < v.size_ + 1 := by omega
      rw [if_pos c2, hcells j (by omega), if_neg c1, if_pos rfl, Nat.sub_self,
        List.singleton_append, List.getElem?_cons_zero]
    · have e : j - i = (j - i - 1) + 1 := by omega
      rw [e, List.singleton_append, List.getElem?_cons_succ, List.getElem?_drop,
        toList_getElem?]
      have e2 : i + (j - i - 1) = j - 1 := by omega
      rw [e2]
      by_cases c2 : j < v.size_ + 1
      · have c3 : j - 1 < v.size_ := by omega
        rw [if_pos c2, if_pos c3, hcells j (by omega), if_neg c1, if_neg c4]
      · have c3 : ¬ j - 1 < v.size_ := by omega
        rw [if_neg c2, if_neg c3]

theorem Insert_spec [Elem T] (v : SimpleVector T) (i : Nat) (x : T) (h : v.WF)
    (hi : i ≤ v.size_) :
    ∃ w, v.Insert i x = .ok (w, i) ∧ w.WF ∧ w.size_ = v.size_ + 1 ∧
      w.capacity_ = (if v.size_ < v.capacity_ then v.capacity_
        else if v.capacity_ = 0 then 1 else 2 * v.capacity_) ∧
      w.toList = v.toList.take i ++ [x] ++ v.toList.drop i := by
  obtain ⟨h1, h2⟩ := h
  by_cases hc : v.size_ < v.capacity_
  · obtain ⟨b, buf, hb, hw, he, hcells⟩ := shift_write v.vector_ i v.size_ x hi (by omega)
    refine ⟨{ v with vector_ := buf, size_ := v.size_ + 1 }, ?_, ?_, rfl, ?_, ?_⟩
    · by_cases hp : i = v.size_
      · subst hp
        rw [stdMoveBackward_empty] at hb
        cases hb
        simp [Insert, hc, begin_, end_, hw, bind, Except.bind, pure, Except.pure]
      · simp [Insert, hc, hp, begin_, end_, hb, hw, bind, Except.bind, pure, Except.pure]
    · exact ⟨by show v.size_ + 1 ≤ v.capacity_; omega, by show buf.extent = v.capacity_; omega⟩
    · rw [if_pos hc]
    · exact toList_insert v _ i x (by omega) hi rfl hcells
  · have hfull : v.size_ = v.capacity_ := by omega
    by_cases h0 : v.capacity_ = 0
    · have hi0 : i = 0 := by omega
      subst hi0
      obtain ⟨v1, hr, hsz, hcap, hext, hc1⟩ := Reserve_grow v 1 (by omega) (by omega) (by omega)
      obtain ⟨b, buf, hb, hw, he, hcells⟩ :=
        shift_write v1.vector_ 0 v1.size_ x (by omega) (by omega)
      have hv1 : v1.size_ = 0 := by omega
      rw [hv1, stdMoveBackward_empty] at hb
      cases hb
      refine ⟨{ v1 with vector_ := buf, size_ := v1.size_ + 1 }, ?_, ?_, ?_, ?_, ?_⟩
      · simp [Insert, hc, h0, begin_, hr, hw, bind, Except.bind, pure, Except.pure]
      · exact ⟨by show v1.size_ + 1 ≤ v1.capacity_; omega,
          by show buf.extent = v1.capacity_; omega⟩
      · show v1.size_ + 1 = v.size_ + 1
        omega
      · rw [if_neg hc, if_pos h0]
        exact hcap
      · apply toList_insert v _ 0 x (by omega) (by omega)
        · show v1.size_ + 1 = v.size_ + 1
          omega
        · intro j hj
          show buf.cells[j]? = _
          have hj0 : j = 0 := by omega
          subst hj0
          rw [hcells 0 (by omega)]
          rfl
    · obtain ⟨v1, hr, hsz, hcap, hext, hc1⟩ :=
        Reserve_grow v (2 * v.capacity_) (by omega) (by omega) (by omega)
      obtain ⟨b, buf, hb, hw, he, hcells⟩ :=
        shift_write v1.vector_ i v1.size_ x (by omega) (by omega)
      refine ⟨{ v1 with vector_ := buf, size_ := v1.size_ + 1 }, ?_, ?_, ?_, ?_, ?_⟩
      · simp [Insert, hc, h0, begin_, end_, hr, hb, hw, bind, Except.bind, pure, Except.pure]
      · exact ⟨by show v1.size_ + 1 ≤ v1.capacity_; omega,
          by show buf.extent = v1.capacity_; omega⟩
      · show v1.size_ + 1 = v.size_ + 1
        omega
      · rw [if_neg hc, if_neg h0]
        exact hcap
      · apply toList_insert v _ i x (by omega) hi
        · show v1.size_ + 1 = v.size_ + 1
          omega
        · intro j hj
          show buf.cells[j]? = _
          rw [hcells j (by omega)]
          by_cases c1 : j < i
          · have : j < v.size_ := by omega
            rw [if_pos c1, if_pos c1, hc1 j, if_pos this]
          · rw [if_neg c1, if_neg c1]
            by_cases c2 : j = i
            · rw [if_pos c2, if_pos c2]
            · have : j - 1 < v.size_ := by omega
              rw [if_neg c2, if_neg c2, hc1 (j - 1), if_pos this]

theorem InsertMove_eq_Insert [Elem T] (v : SimpleVector T) (i : Nat) (x : T) :
    v.InsertMove i x = v.Insert i x := rfl

theorem toList_insert_getElem? (l : List T) (i : Nat) (x : T) (hi : i ≤ l.length) :
    (l.take i ++ [x] ++ l.drop i)[i]? = some x := by
  have hlt : (l.take i).length = i := by
    rw [List.length_take]; omega
  have : ¬ i < i := by omega
  rw [List.append_assoc, List.getElem?_append, hlt, if_neg this, Nat.sub_self,
    List.singleton_append, List.getElem?_cons_zero]

theorem Erase_spec [Elem T] (v : SimpleVector T) (i : Nat) (h : v.WF) (hi : i < v.size_) :
    ∃ w, v.Erase i = .ok (w, i) ∧ w.WF ∧ w.size_ = v.size_ - 1 ∧
      w.capacity_ = v.capacity_ ∧ w.toList = v.toList.eraseIdx i := by
  obtain ⟨h1, h2⟩ := h
  obtain ⟨b, hb, hbe, hbc⟩ := moveLoop_spec (v.size_ - (i + 1)) v.vector_ i (by omega)
  refine ⟨{ v with vector_ := b, size_ := v.size_ - 1 }, ?_, ?_, rfl, rfl, ?_⟩
  · have c1 : ¬ i = v.size_ := by omega
    have c2 : ¬ i + 1 > v.size_ := by omega
    simp [Erase, end_, begin_, c1, stdMove, c2, hb, bind, Except.bind, pure, Except.pure]
  · exact ⟨by show v.size_ - 1 ≤ v.capacity_; omega, by show b.extent = v.capacity_; omega⟩
  · apply List.ext_getElem?
    intro j
    rw [List.getElem?_eraseIdx, toList_getElem?, toList_getElem?, toList_getElem?]
    show (if j < v.size_ - 1 then b.cells[j]? else none) = _
    by_cases c1 : j < v.size_ - 1
    · have c2 : j < v.size_ := by omega
      have c3 : j + 1 < v.size_ := by omega
      rw [if_pos c1, if_pos c2, if_pos c3, hbc j]
      by_cases c4 : j < i
      · have c5 : ¬ (i ≤ j ∧ j < i + (v.size_ - (i + 1))) := by omega
        have c6 : ¬ (j = i + (v.size_ - (i + 1)) ∧ 0 < v.size_ - (i + 1)) := by omega
        rw [if_pos c4, if_neg c5, if_neg c6]
      · have c5 : i ≤ j ∧ j < i + (v.size_ - (i + 1)) := by omega
        rw [if_neg c4, if_pos c5]
    · have c3 : ¬ j + 1 < v.size_ := by omega
      have c4 : ¬ j < i := by omega
      rw [if_neg c1, if_neg c4, if_neg c3]

theorem Reserve_size [Elem T] (v w : SimpleVector T) (capacity : Nat)
    (h : v.Reserve capacity = .ok w) : w.size_ = v.size_ := by
  unfold Reserve at h
  split at h
  · cases hm : moveToLoop v.vector_ (ArrayPtr.alloc capacity) v.begin_ 0 (v.end_ - v.begin_) with
    | error e => simp [hm, bind, Except.bind] at h
    | ok r =>
      simp [hm, bind, Except.bind, pure, Except.pure] at h
      rw [← h]
  · simp [pure, Except.pure] at h
    rw [h]

theorem Insert_end_eq_PushBack [Elem T] (v : SimpleVector T) (x : T) :
    v.Insert v.end_ x = (v.PushBack x).map (fun w => (w, v.end_)) := by
  by_cases hc : v.size_ < v.capacity_
  · have hgt : v.capacity_ > v.size_ := hc
    simp only [Insert, PushBack, hc, hgt, end_, begin_, if_true, ne_eq, not_true_eq_false,
      if_false, Nat.sub_zero, bind, Except.bind, pure, Except.pure]
    cases v.vector_.write v.size_ x <;> rfl
  · have hgt : ¬ v.capacity_ > v.size_ := hc
    by_cases h0 : v.capacity_ = 0
    · have hm : max 1 (v.capacity_ * 2) = 1 := by omega
      simp only [Insert, PushBack, hc, hgt, h0, end_, begin_, if_true, if_false, Nat.sub_zero,
        bind, Except.bind, pure, Except.pure]
      simp only [Nat.zero_mul, Nat.max_zero]
      cases hr : v.Reserve 1 with
      | error e => rfl
      | ok v1 =>
        have hsz := Reserve_size v v1 1 hr
        simp only [hsz]
        cases v1.vector_.write v.size_ x <;> rfl
    · have hm : max 1 (v.capacity_ * 2) = 2 * v.capacity_ := by omega
      simp only [Insert, PushBack, hc, hgt, h0, hm, end_, begin_, if_true, if_false,
        Nat.sub_zero, bind, Except.bind, pure, Except.pure]
      cases hr : v.Reserve (2 * v.capacity_) with
      | error e => rfl
      | ok v1 =>
        have hsz := Reserve_size v v1 _ hr
        simp only [hsz, stdMoveBackward_empty]
        cases v1.vector_.write v.size_ x <;> rfl

theorem eraseIdx_reinsert (l : List T) (i : Nat) (x : T) (hx : l[i]? = some x) :
    (l.eraseIdx i).take i ++ [x] ++ (l.eraseIdx i).drop i = l := by
  have hi : i < l.length := by
    obtain ⟨h, _⟩ := List.getElem?_eq_some.mp hx
    exact h
  have hlt : ((l.eraseIdx i).take i).length = i := by
    rw [List.length_take, List.length_eraseIdx, if_pos hi]; omega
  apply List.ext_getElem?
  intro j
  rw [List.append_assoc, List.getElem?_append, hlt, List.getElem?_take]
  by_cases c1 : j < i
  · rw [if_pos c1, if_pos c1, List.getElem?_eraseIdx, if_pos c1]
  · rw [if_neg c1]
    by_cases c2 : j = i
    · subst c2
      rw [Nat.sub_self, List.singleton_append, List.getElem?_cons_zero, hx]
    · have e : j - i = (j - i - 1) + 1 := by omega
      have e2 : i + (j - i - 1) = j - 1 := by omega
      have e3 : j - 1 + 1 = j := by omega
      have c3 : ¬ j - 1 < i := by omega
      rw [e, List.singleton_append, List.getElem?_cons_succ, List.getElem?_drop, e2,
        List.getElem?_eraseIdx, if_neg c3, e3]

theorem get_eq_toList (v : SimpleVector T) (i : Nat) (h : v.size_ ≤ v.vector_.extent)
    (hi : i < v.size_) : ∃ x, v.get i = .ok x ∧ v.toList[i]? = some x := by
  obtain ⟨x, hx, hr⟩ := v.vector_.read_of_lt (i := i) (by omega)
  refine ⟨x, hr, ?_⟩
  rw [toList_getElem?, if_pos hi, hx]

theorem ofList_spec [Elem T] (init : List T) :
    ∃ w, ofList init = .ok w ∧ w.WF ∧ w.size_ = init.length ∧ w.capacity_ = init.length ∧
      w.toList = init := by
  obtain ⟨b, hb, hbe, hbc⟩ := copyList_spec init (ArrayPtr.alloc init.length) 0
    (by rw [ArrayPtr.extent_alloc]; omega)
  rw [ArrayPtr.extent_alloc] at hbe
  refine ⟨⟨init.length, init.length, b⟩, ?_, ⟨Nat.le_refl _, hbe⟩, rfl, rfl, ?_⟩
  · simp [ofList, hb, bind, Except.bind, pure, Except.pure]
  · apply List.ext_getElem?
    intro j
    rw [toList_getElem?]
    show (if j < init.length then b.cells[j]? else none) = _
    by_cases c1 : j < init.length
    · have c2 : 0 ≤ j ∧ j < 0 + init.length := by omega
      rw [if_pos c1, hbc j, if_pos c2, Nat.sub_zero]
    · rw [if_neg c1, List.getElem?_eq_none (by omega)]

theorem At_out_of_range_iff (v : SimpleVector T) (index : Nat) :
    v.At index = .error .out_of_range ↔ v.size_ ≤ index := by
  unfold At
  by_cases h : index ≥ v.size_
  · rw [if_pos h]
    exact ⟨fun _ => h, fun _ => rfl⟩
  · rw [if_neg h]
    constructor
    · intro hr
      unfold ArrayPtr.read at hr
      split at hr
      · cases hr
      · cases hr
    · intro h2
      exact absurd h2 h

theorem At_of_lt (v : SimpleVector T) (index : Nat) (hs : v.size_ ≤ v.vector_.extent)
    (hi : index < v.size_) :
    ∃ x, v.At index = .ok x ∧ v.get index = .ok x ∧ v.toList[index]? = some x := by
  obtain ⟨x, hg, hx⟩ := get_eq_toList v index hs hi
  refine ⟨x, ?_, hg, hx⟩
  have : ¬ index ≥ v.size_ := by omega
  unfold At
  rw [if_neg this]
  exact hg

theorem copy_spec [Elem T] (other : SimpleVector T) (hs : other.size_ ≤ other.vector_.extent) :
    ∃ w, copy other = .ok w ∧ w.size_ = other.size_ ∧ w.capacity_ = other.capacity_ ∧
      w.vector_.extent = other.size_ ∧
      (∀ j, j < other.size_ → w.vector_.cells[j]? = other.vector_.cells[j]?) ∧
      w.toList = other.toList := by
  obtain ⟨b, hb, hbe, hbc⟩ := copyLoop_spec other.size_ other.vector_
    (ArrayPtr.alloc other.size_) 0 0 (by omega) (by rw [ArrayPtr.extent_alloc]; omega)
  rw [ArrayPtr.extent_alloc] at hbe
  have hcells : ∀ j, j < other.size_ → b.cells[j]? = other.vector_.cells[j]? := by
    intro j hj
    have c : 0 ≤ j ∧ j < 0 + other.size_ := by omega
    rw [hbc j, if_pos c, Nat.sub_zero, Nat.zero_add]
  refine ⟨⟨other.size_, other.capacity_, b⟩, ?_, rfl, rfl, hbe, hcells, ?_⟩
  · simp [copy, hb, bind, Except.bind, pure, Except.pure]
  · exact Reserve_grow_toList other ⟨other.size_, other.capacity_, b⟩ rfl hcells

theorem copyAssign_spec [Elem T] [DecidableEq T] (a b : SimpleVector T)
    (hs : b.size_ ≤ b.vector_.extent) :
    ∃ w, a.copyAssign b false = .ok w ∧ eq w b = .ok true ∧ w.size_ = b.size_ ∧
      w.capacity_ = b.capacity_ ∧ w.vector_.extent = b.size_ ∧ w.toList = b.toList := by
  obtain ⟨w, hw, hsz, hcap, hext, hcells, hl⟩ := copy_spec b hs
  refine ⟨w, ?_, ?_, hsz, hcap, hext, hl⟩
  · simp [copyAssign, hw, swap, ArrayPtr.swap, bind, Except.bind, pure, Except.pure]
  · have hg : w.GetSize = b.GetSize := hsz
    unfold eq
    rw [if_pos hg]
    show equalLoop w.vector_ b.vector_ 0 0 (w.size_ - 0) = _
    rw [Nat.sub_zero, hsz]
    exact equalLoop_self w.vector_ b.vector_ b.size_ 0 (by omega) (by omega)
      (fun j _ h2 => hcells j (by omega))

theorem copyAssign_self [Elem T] (a : SimpleVector T) : a.copyAssign a true = .ok a := rfl

/-! ### What a normal return tells about the sizes -/

theorem bind_ok_inv {α β : Type} {x : Except Fault α} {f : α → Except Fault β} {w : β}
    (h : (x >>= f) = .ok w) : ∃ a, x = .ok a ∧ f a = .ok w := by
  cases x with
  | error e => simp [bind, Except.bind] at h
  | ok a => exact ⟨a, rfl, h⟩

theorem map_ok_inv {α β : Type} {x : Except Fault α} {f : α → β} {w : β}
    (h : x.map f = .ok w) : ∃ a, x = .ok a ∧ f a = w := by
  cases x with
  | error e => simp [Except.map] at h
  | ok a =>
    simp only [Except.map, Except.ok.injEq] at h
    exact ⟨a, rfl, h⟩

theorem write_ok_inv {a b : ArrayPtr T} {i : Nat} {x : T} (h : a.write i x = .ok b) :
    i < a.extent ∧ b.extent = a.extent := by
  by_cases hi : i < a.extent
  · obtain ⟨b1, hw, _, he⟩ := a.write_of_lt x hi
    rw [hw] at h
    cases h
    exact ⟨hi, he⟩
  · rw [a.write_of_ge x (by omega)] at h
    cases h

theorem Reserve_ok_inv [Elem T] {v w : SimpleVector T} {capacity : Nat}
    (h : v.Reserve capacity = .ok w) :
    w.size_ = v.size_ ∧
      w.capacity_ = (if capacity > v.capacity_ then capacity else v.capacity_) := by
  refine ⟨Reserve_size v w capacity h, ?_⟩
  unfold Reserve at h
  by_cases c : capacity > v.capacity_
  · rw [if_pos c] at h
    rw [if_pos c]
    obtain ⟨r, _, hr⟩ := bind_ok_inv h
    obtain ⟨old, nv⟩ := r
    simp only [pure, Except.pure, Except.ok.injEq] at hr
    rw [← hr]
  · rw [if_neg c] at h
    rw [if_neg c]
    simp only [pure, Except.pure, Except.ok.injEq] at h
    rw [h]

theorem Resize_ok_inv [Elem T] {v w : SimpleVector T} {n : Nat}
    (h : v.Resize n = .ok w) :
    w.size_ = n ∧
      w.capacity_ = (if n < v.size_ ∨ n ≤ v.capacity_ then v.capacity_
        else max n (2 * v.capacity_)) := by
  unfold Resize at h
  by_cases c : n < v.size_ ∨ n ≤ v.capacity_
  · rw [if_pos c] at h
    rw [if_pos c]
    simp only [pure, Except.pure, Except.ok.injEq] at h
    rw [← h]
    exact ⟨rfl, rfl⟩
  · rw [if_neg c] at h
    rw [if_neg c]
    obtain ⟨v1, hr, hp⟩ := bind_ok_inv h
    simp only [pure, Except.pure, Except.ok.injEq] at hp
    obtain ⟨_, hcap⟩ := Reserve_ok_inv hr
    have hgt : max n (2 * v.capacity_) > v.capacity_ := by omega
    rw [if_pos hgt] at hcap
    rw [← hp]
    exact ⟨rfl, hcap⟩

theorem PushBack_ok_inv [Elem T] {v w : SimpleVector T} {x : T}
    (h : v.PushBack x = .ok w) :
    w.size_ = v.size_ + 1 ∧
      w.capacity_ = (if v.capacity_ > v.size_ then v.capacity_
        else max 1 (v.capacity_ * 2)) := by
  unfold PushBack at h
  by_cases c : v.capacity_ > v.size_
  · rw [if_pos c] at h
    rw [if_pos c]
    obtain ⟨buf, _, hp⟩ := bind_ok_inv h
    simp only [pure, Except.pure, Except.ok.injEq] at hp
    rw [← hp]
    exact ⟨rfl, rfl⟩
  · rw [if_neg c] at h
    rw [if_neg c]
    obtain ⟨v1, hr, h2⟩ := bind_ok_inv h
    obtain ⟨buf, _, hp⟩ := bind_ok_inv h2
    simp only [pure, Except.pure, Except.ok.injEq] at hp
    obtain ⟨hsz, hcap⟩ := Reserve_ok_inv hr
    have hgt : max 1 (v.capacity_ * 2) > v.capacity_ := by omega
    rw [if_pos hgt] at hcap
    rw [← hp]
    exact ⟨by show v1.size_ + 1 = v.size_ + 1; omega, hcap⟩

theorem PushBackMove_eq_PushBack [Elem T] (v : SimpleVector T) (x : T) :
    v.PushBackMove x = v.PushBack x := by
  by_cases c : v.capacity_ > v.size_
  · simp only [PushBackMove, PushBack, c, if_true]
  · have hgt : max 1 (v.capacity_ * 2) > v.capacity_ := by omega
    simp only [PushBackMove, PushBack, Reserve, c, hgt, if_true, if_false, bind, Except.bind,
      pure, Except.pure, ArrayPtr.swap]
    cases moveToLoop v.vector_ (ArrayPtr.alloc (max 1 (v.capacity_ * 2))) v.begin_ 0
        (v.end_ - v.begin_) with
    | error e => rfl
    | ok r =>
      obtain ⟨old, nv⟩ := r
      simp only []

theorem Insert_tail_inv {v1 w : SimpleVector T} {n c : Nat} {x : T}
    (h : (v1.vector_.write n x >>= fun buf =>
      (pure (({ v1 with vector_ := buf, size_ := v1.size_ + 1 } : SimpleVector T), n) :
        Except Fault (SimpleVector T × Nat))) = .ok (w, c)) :
    w.size_ = v1.size_ + 1 ∧ w.capacity_ = v1.capacity_ := by
  obtain ⟨buf, _, hp⟩ := bind_ok_inv h
  simp only [pure, Except.pure, Except.ok.injEq, Prod.mk.injEq] at hp
  rw [← hp.1]
  exact ⟨rfl, rfl⟩

theorem Insert_ok_inv [Elem T] {v w : SimpleVector T} {pos c : Nat} {x : T}
    (h : v.Insert pos x = .ok (w, c)) :
    w.size_ = v.size_ + 1 ∧
      w.capacity_ = (if v.size_ < v.capacity_ then v.capacity_
        else if v.capacity_ = 0 then 1 else 2 * v.capacity_) := by
  unfold Insert at h
  dsimp only at h
  by_cases c1 : v.size_ < v.capacity_
  · rw [if_pos c1] at h
    rw [if_pos c1]
    by_cases c2 : pos ≠ v.end_
    · rw [if_pos c2] at h
      obtain ⟨b, _, h2⟩ := bind_ok_inv h
      obtain ⟨y, hy, h3⟩ := bind_ok_inv h2
      simp only [pure, Except.pure, Except.ok.injEq] at hy
      subst hy
      obtain ⟨t1, t2⟩ := Insert_tail_inv h3
      exact ⟨t1, t2⟩
    · rw [if_neg c2] at h
      obtain ⟨y, hy, h3⟩ := bind_ok_inv h
      simp only [pure, Except.pure, Except.ok.injEq] at hy
      subst hy
      obtain ⟨t1, t2⟩ := Insert_tail_inv h3
      exact ⟨t1, t2⟩
  · rw [if_neg c1] at h
    rw [if_neg c1]
    by_cases c2 : v.capacity_ = 0
    · rw [if_pos c2] at h
      rw [if_pos c2]
      obtain ⟨y, hr, h3⟩ := bind_ok_inv h
      obtain ⟨hsz, hcap⟩ := Reserve_ok_inv hr
      have hgt : 1 > v.capacity_ := by omega
      rw [if_pos hgt] at hcap
      obtain ⟨t1, t2⟩ := Insert_tail_inv h3
      exact ⟨by omega, by omega⟩
    · rw [if_neg c2] at h
      rw [if_neg c2]
      obtain ⟨v2, hr, h2⟩ := bind_ok_inv h
      obtain ⟨b, _, h4⟩ := bind_ok_inv h2
      obtain ⟨y, hy, h3⟩ := bind_ok_inv h4
      simp only [pure, Except.pure, Except.ok.injEq] at hy
      subst hy
      obtain ⟨hsz, hcap⟩ := Reserve_ok_inv hr
      have hgt : 2 * v.capacity_ > v.capacity_ := by omega
      rw [if_pos hgt] at hcap
      obtain ⟨t1, t2⟩ := Insert_tail_inv h3
      exact ⟨by show w.size_ = v.size_ + 1; rw [t1]; show v2.size_ + 1 = _; omega,
        by rw [t2]; exact hcap⟩

theorem Erase_ok_inv [Elem T] {v w : SimpleVector T} {pos c : Nat}
    (h : v.Erase pos = .ok (w, c)) :
    w.size_ = v.size_ - 1 ∧ w.capacity_ = v.capacity_ := by
  unfold Erase at h
  by_cases c1 : pos = v.end_
  · rw [if_pos c1] at h
    cases h
  · rw [if_neg c1] at h
    obtain ⟨b, _, hb⟩ := bind_ok_inv h
    simp only [pure, Except.pure, Except.ok.injEq, Prod.mk.injEq] at hb
    rw [← hb.1]
    exact ⟨rfl, rfl⟩

theorem PopBack_ok_inv {v w : SimpleVector T} (h : v.PopBack = .ok w) :
    w.size_ = v.size_ - 1 ∧ w.capacity_ = v.capacity_ ∧ w.vector_ = v.vector_ ∧
      v.size_ ≠ 0 := by
  unfold PopBack IsEmpty at h
  by_cases c : v.size_ ≠ 0
  · simp [c, pure, Except.pure] at h
    rw [← h]
    exact ⟨rfl, rfl, rfl, c⟩
  · simp [c] at h

theorem set_ok_inv {v w : SimpleVector T} {i : Nat} {x : T} (h : v.set i x = .ok w) :
    w.size_ = v.size_ ∧ w.capacity_ = v.capacity_ ∧ w.vector_.extent = v.vector_.extent := by
  unfold set at h
  obtain ⟨b, hw, hb⟩ := bind_ok_inv h
  simp only [pure, Except.pure, Except.ok.injEq] at hb
  rw [← hb]
  exact ⟨rfl, rfl, (write_ok_inv hw).2⟩

theorem Op.run_size_le [Elem T] (o : Op T) (v w : SimpleVector T)
    (h : v.size_ ≤ v.capacity_) (hr : o.run v = .ok w) : w.size_ ≤ w.capacity_ := by
  cases o with
  | Clear =>
    simp only [Op.run, pure, Except.pure, Except.ok.injEq] at hr
    rw [← hr]
    exact Nat.zero_le _
  | Resize n =>
    obtain ⟨h1, h2⟩ := Resize_ok_inv hr
    rw [h1, h2]
    split <;> omega
  | Reserve n =>
    obtain ⟨h1, h2⟩ := Reserve_ok_inv hr
    rw [h1, h2]
    split <;> omega
  | PushBack x =>
    obtain ⟨h1, h2⟩ := PushBack_ok_inv hr
    rw [h1, h2]
    split <;> omega
  | PushBackMove x =>
    simp only [Op.run, PushBackMove_eq_PushBack] at hr
    obtain ⟨h1, h2⟩ := PushBack_ok_inv hr
    rw [h1, h2]
    split <;> omega
  | Insert pos x =>
    obtain ⟨r, hi, hw⟩ := map_ok_inv hr
    obtain ⟨w1, c⟩ := r
    simp only at hw
    subst hw
    obtain ⟨h1, h2⟩ := Insert_ok_inv hi
    rw [h1, h2]
    split
    · omega
    · split <;> omega
  | InsertMove pos x =>
    obtain ⟨r, hi, hw⟩ := map_ok_inv hr
    obtain ⟨w1, c⟩ := r
    simp only at hw
    subst hw
    obtain ⟨h1, h2⟩ := Insert_ok_inv hi
    rw [h1, h2]
    split
    · omega
    · split <;> omega
  | PopBack =>
    obtain ⟨h1, h2, _, _⟩ := PopBack_ok_inv hr
    omega
  | Erase pos =>
    obtain ⟨r, hi, hw⟩ := map_ok_inv hr
    obtain ⟨w1, c⟩ := r
    simp only at hw
    subst hw
    obtain ⟨h1, h2⟩ := Erase_ok_inv hi
    omega
  | assign i x =>
    obtain ⟨h1, h2, _⟩ := set_ok_inv hr
    omega

/-! ### Constructors, `Resize`, and the vectors a program can reach -/

theorem ofSizeValue_spec [Elem T] (size : Nat) (value : T) :
    ∃ w, ofSizeValue size value = .ok w ∧ w.WF ∧ w.size_ = size ∧ w.capacity_ = size ∧
      w.toList = List.replicate size value := by
  obtain ⟨b, hb, hbe, hbc⟩ := fillLoop_spec value size (ArrayPtr.alloc size) 0
    (by rw [ArrayPtr.extent_alloc]; omega)
  rw [ArrayPtr.extent_alloc] at hbe
  refine ⟨⟨size, size, b⟩, ?_, ⟨Nat.le_refl _, hbe⟩, rfl, rfl, ?_⟩
  · simp [ofSizeValue, hb, bind, Except.bind, pure, Except.pure]
  · apply List.ext_getElem?
    intro j
    rw [toList_getElem?, List.getElem?_replicate]
    show (if j < size then b.cells[j]? else none) = _
    by_cases c1 : j < size
    · have c2 : 0 ≤ j ∧ j < 0 + size := by omega
      rw [if_pos c1, if_pos c1, hbc j, if_pos c2]
    · rw [if_neg c1, if_neg c1]

theorem ofSize_spec [Elem T] (size : Nat) :
    ∃ w, (ofSize size : Except Fault (SimpleVector T)) = .ok w ∧ w.WF ∧ w.size_ = size ∧
      w.capacity_ = size ∧ w.toList = List.replicate size Elem.dflt :=
  ofSizeValue_spec size Elem.dflt

theorem Ctor.run_ok [Elem T] (c : Ctor T) :
    ∃ w, c.run = .ok w ∧ w.size_ ≤ w.capacity_ := by
  cases c with
  | dflt => exact ⟨empty, rfl, Nat.le_refl 0⟩
  | sized size =>
    obtain ⟨w, hw, hwf, _⟩ := ofSize_spec (T := T) size
    exact ⟨w, hw, hwf.1⟩
  | reserve r => exact ⟨ofReserve r, rfl, Nat.zero_le _⟩
  | sizedValue size value =>
    obtain ⟨w, hw, hwf, _⟩ := ofSizeValue_spec size value
    exact ⟨w, hw, hwf.1⟩
  | list init =>
    obtain ⟨w, hw, hwf, _⟩ := ofList_spec init
    exact ⟨w, hw, hwf.1⟩

theorem copy_ok_inv [Elem T] {v w : SimpleVector T} (h : copy v = .ok w) :
    w.size_ = v.size_ ∧ w.capacity_ = v.capacity_ := by
  unfold copy at h
  obtain ⟨b, _, hb⟩ := bind_ok_inv h
  simp only [pure, Except.pure, Except.ok.injEq] at hb
  rw [← hb]
  exact ⟨rfl, rfl⟩

theorem copyAssign_ok_inv [Elem T] {v u w : SimpleVector T}
    (h : v.copyAssign u false = .ok w) :
    w.size_ = u.size_ ∧ w.capacity_ = u.capacity_ := by
  unfold copyAssign at h
  simp only [Bool.false_eq_true, if_false] at h
  obtain ⟨cv, hc, hb⟩ := bind_ok_inv h
  simp only [pure, Except.pure, Except.ok.injEq] at hb
  obtain ⟨h1, h2⟩ := copy_ok_inv hc
  rw [← hb]
  exact ⟨h1, h2⟩

theorem Reachable.size_le [Elem T] {v : SimpleVector T} (h : Reachable v) :
    v.size_ ≤ v.capacity_ := by
  induction h with
  | ctor c w hc =>
    obtain ⟨w1, h1, h2⟩ := Ctor.run_ok c
    rw [hc] at h1
    cases h1
    exact h2
  | copyCtor v w _ hc ih =>
    obtain ⟨h1, h2⟩ := copy_ok_inv hc
    omega
  | moveCtorNew v _ ih => exact ih
  | moveCtorOld v _ _ => exact Nat.le_refl 0
  | op o v w _ _ hr ih => exact Op.run_size_le o v w ih hr
  | swapThis v u _ _ _ ih2 => exact ih2
  | swapOther v u _ _ ih1 _ => exact ih1
  | copyAssign v u w _ _ hc _ ih2 =>
    obtain ⟨h1, h2⟩ := copyAssign_ok_inv hc
    omega
  | moveAssignThis v u _ _ _ ih2 => exact ih2
  | moveAssignOther v u _ _ _ _ => exact Nat.le_refl 0

theorem Resize_spec [Elem T] (v : SimpleVector T) (n : Nat) (h : v.WF) :
    ∃ w, v.Resize n = .ok w ∧ w.WF ∧ w.size_ = n ∧
      w.capacity_ = (if n ≤ v.capacity_ then v.capacity_ else max n (2 * v.capacity_)) ∧
      (n ≤ v.capacity_ → w.vector_ = v.vector_) ∧
      ∀ j, j < v.size_ → w.vector_.cells[j]? = v.vector_.cells[j]? := by
  obtain ⟨h1, h2⟩ := h
  by_cases c : n ≤ v.capacity_
  · refine ⟨{ v with size_ := n }, ?_, ⟨c, h2⟩, rfl, ?_, fun _ => rfl, fun _ _ => rfl⟩
    · have : n < v.size_ ∨ n ≤ v.capacity_ := Or.inr c
      simp [Resize, this, pure, Except.pure]
    · rw [if_pos c]
  · have hmax : v.capacity_ < max n (2 * v.capacity_) := by omega
    obtain ⟨v1, hr, hsz, hcap, hext, hcells⟩ :=
      Reserve_grow v (max n (2 * v.capacity_)) (by omega) (by omega) hmax
    refine ⟨{ v1 with size_ := n }, ?_, ?_, rfl, ?_, fun hc => absurd hc c, ?_⟩
    · have : ¬ (n < v.size_ ∨ n ≤ v.capacity_) := by omega
      simp [Resize, this, hr, bind, Except.bind, pure, Except.pure]
    · exact ⟨by show n ≤ v1.capacity_; omega, by show v1.vector_.extent = v1.capacity_; omega⟩
    · rw [if_neg c]
      exact hcap
    · intro j hj
      show v1.vector_.cells[j]? = _
      rw [hcells j, if_pos hj]

theorem Op.run_of_wf [Elem T] (o : Op T) (v : SimpleVector T) (h : v.WF) (hp : o.pre v) :
    ∃ w, o.run v = .ok w ∧ w.WF := by
  cases o with
  | Clear => exact ⟨v.Clear, rfl, ⟨Nat.zero_le _, h.2⟩⟩
  | Resize n =>
    obtain ⟨w, hw, hwf, _⟩ := Resize_spec v n h
    exact ⟨w, hw, hwf⟩
  | Reserve n =>
    by_cases c : n ≤ v.capacity_
    · exact ⟨v, Reserve_noop v n c, h⟩
    · have h1 := h.1
      obtain ⟨w, hw, hsz, hcap, hext, _⟩ :=
        Reserve_grow v n h.size_le_extent (by omega) (by omega)
      exact ⟨w, hw, ⟨by omega, by omega⟩⟩
  | PushBack x =>
    obtain ⟨w, hw, hwf, _⟩ := PushBack_spec v x h
    exact ⟨w, hw, hwf⟩
  | PushBackMove x =>
    obtain ⟨w, hw, hwf, _⟩ := PushBackMove_spec v x h
    exact ⟨w, hw, hwf⟩
  | Insert pos x =>
    obtain ⟨w, hw, hwf, _⟩ := Insert_spec v pos x h hp
    exact ⟨w, by simp [Op.run, hw, Except.map], hwf⟩
  | InsertMove pos x =>
    obtain ⟨w, hw, hwf, _⟩ := Insert_spec v pos x h hp
    exact ⟨w, by simp [Op.run, InsertMove_eq_Insert, hw, Except.map], hwf⟩
  | PopBack =>
    have hne : v.size_ ≠ 0 := hp
    have h1 := h.1
    refine ⟨{ v with size_ := v.size_ - 1 }, ?_, ⟨by show v.size_ - 1 ≤ v.capacity_; omega, h.2⟩⟩
    simp [Op.run, SimpleVector.PopBack, SimpleVector.IsEmpty, hne, pure, Except.pure]
  | Erase pos =>
    obtain ⟨w, hw, hwf, _⟩ := Erase_spec v pos h hp
    exact ⟨w, by simp [Op.run, hw, Except.map], hwf⟩
  | assign i x =>
    have hi : i < v.size_ := hp
    have h1 := h.1
    have h2 := h.2
    obtain ⟨b, hw, _, he⟩ := v.vector_.write_of_lt x (i := i) (by omega)
    refine ⟨{ v with vector_ := b }, ?_, ⟨h1, by show b.extent = v.capacity_; omega⟩⟩
    simp [Op.run, set, hw, bind, Except.bind, pure, Except.pure]

/-! ### The comparison operators -/

theorem lexLess_nil_right [LT T] [DecidableRel (α := T) (· < ·)] (l : List T) :
    lexLess l [] = false := by
  cases l <;> rfl

theorem lexLess_asymm [LinearOrder T] : ∀ (l1 l2 : List T),
    lexLess l1 l2 = true → lexLess l2 l1 = false := by
  intro l1
  induction l1 with
  | nil => intro l2 _; exact lexLess_nil_right l2
  | cons x xs ih =>
    intro l2 h
    cases l2 with
    | nil => simp [lexLess] at h
    | cons y ys =>
      simp only [lexLess] at h ⊢
      by_cases c1 : x < y
      · have c2 : ¬ y < x := lt_asymm c1
        rw [if_neg c2, if_pos c1]
      · rw [if_neg c1] at h
        by_cases c2 : y < x
        · rw [if_pos c2] at h
          cases h
        · rw [if_neg c2] at h
          rw [if_neg c2, if_neg c1]
          exact ih ys h

theorem lexLess_total [LinearOrder T] : ∀ (l1 l2 : List T),
    lexLess l1 l2 = false → lexLess l2 l1 = false → l1 = l2 := by
  intro l1
  induction l1 with
  | nil =>
    intro l2 h _
    cases l2 with
    | nil => rfl
    | cons y ys => simp [lexLess] at h
  | cons x xs ih =>
    intro l2 h1 h2
    cases l2 with
    | nil => simp [lexLess] at h2
    | cons y ys =>
      simp only [lexLess] at h1 h2
      by_cases c1 : x < y
      · rw [if_pos c1] at h1
        cases h1
      · by_cases c2 : y < x
        · rw [if_pos c2] at h2
          cases h2
        · rw [if_neg c1, if_neg c2] at h1
          rw [if_neg c2, if_neg c1] at h2
          have hxy : x = y := le_antisymm (not_lt.mp c2) (not_lt.mp c1)
          rw [hxy, ih ys h1 h2]

theorem lexLess_irrefl [LinearOrder T] (l : List T) : lexLess l l = false := by
  induction l with
  | nil => rfl
  | cons x xs ih =>
    simp only [lexLess]
    rw [if_neg (lt_irrefl x), if_neg (lt_irrefl x)]
    exact ih

theorem lexLess_iff_lex [LinearOrder T] : ∀ (l1 l2 : List T),
    lexLess l1 l2 = true ↔ List.Lex (· < ·) l1 l2 := by
  intro l1
  induction l1 with
  | nil =>
    intro l2
    cases l2 with
    | nil => simp [lexLess]
    | cons y ys => simp [lexLess, List.Lex.nil]
  | cons x xs ih =>
    intro l2
    cases l2 with
    | nil => simp [lexLess]
    | cons y ys =>
      simp only [lexLess]
      by_cases c1 : x < y
      · rw [if_pos c1]
        exact ⟨fun _ => List.Lex.rel c1, fun _ => rfl⟩
      · rw [if_neg c1]
        by_cases c2 : y < x
        · rw [if_pos c2]
          constructor
          · intro h; cases h
          · intro h
            cases h with
            | cons h1 => exact absurd c2 (lt_irrefl _)
            | rel h1 => exact absurd h1 c1
        · rw [if_neg c2]
          have hxy : x = y := le_antisymm (not_lt.mp c2) (not_lt.mp c1)
          subst hxy
          rw [ih ys]
          constructor
          · intro h; exact List.Lex.cons h
          · intro h
            cases h with
            | cons h1 => exact h1
            | rel h1 => exact absurd h1 c1

theorem drop_take_cons (l : List T) (i n : Nat) (x : T) (hx : l[i]? = some x) :
    (l.drop i).take (n + 1) = x :: (l.drop (i + 1)).take n := by
  obtain ⟨hl, hx1⟩ := List.getElem?_eq_some.mp hx
  rw [← hx1, List.drop_eq_getElem_cons hl, List.take_succ_cons]

theorem lexLoop_spec [LinearOrder T] (a b : ArrayPtr T) (n1 : Nat) :
    ∀ (i1 i2 n2 : Nat), i1 + n1 ≤ a.extent → i2 + n2 ≤ b.extent →
    lexLoop a b i1 i2 n1 n2 =
      .ok (lexLess ((a.cells.drop i1).take n1) ((b.cells.drop i2).take n2)) := by
  induction n1 with
  | zero =>
    intro i1 i2 n2 _ hb
    cases n2 with
    | zero => simp [lexLoop, lexLess, pure, Except.pure]
    | succ m =>
      obtain ⟨y, hy, _⟩ := b.read_of_lt (i := i2) (by omega)
      rw [drop_take_cons b.cells i2 m y hy]
      simp [lexLoop, lexLess, pure, Except.pure]
  | succ n ih =>
    intro i1 i2 n2 ha hb
    cases n2 with
    | zero =>
      rw [List.take_zero, lexLess_nil_right]
      simp [lexLoop, pure, Except.pure]
    | succ m =>
      obtain ⟨x, hx, hrx⟩ := a.read_of_lt (i := i1) (by omega)
      obtain ⟨y, hy, hry⟩ := b.read_of_lt (i := i2) (by omega)
      rw [drop_take_cons a.cells i1 n x hx, drop_take_cons b.cells i2 m y hy]
      simp only [lexLoop, lexLess, hrx, hry, bind, Except.bind]
      by_cases c1 : x < y
      · rw [if_pos c1, if_pos c1]
        rfl
      · rw [if_neg c1, if_neg c1]
        by_cases c2 : y < x
        · rw [if_pos c2, if_pos c2]
          rfl
        · rw [if_neg c2, if_neg c2]
          exact ih (i1 + 1) (i2 + 1) m (by omega) (by omega)

theorem equalLoop_spec [DecidableEq T] (a b : ArrayPtr T) (n : Nat) :
    ∀ (i1 i2 : Nat), i1 + n ≤ a.extent → i2 + n ≤ b.extent →
    equalLoop a b i1 i2 n =
      .ok (decide ((a.cells.drop i1).take n = (b.cells.drop i2).take n)) := by
  induction n with
  | zero => intro i1 i2 _ _; simp [equalLoop, pure, Except.pure]
  | succ n ih =>
    intro i1 i2 ha hb
    obtain ⟨x, hx, hrx⟩ := a.read_of_lt (i := i1) (by omega)
    obtain ⟨y, hy, hry⟩ := b.read_of_lt (i := i2) (by omega)
    rw [drop_take_cons a.cells i1 n x hx, drop_take_cons b.cells i2 n y hy]
    simp only [equalLoop, hrx, hry, bind, Except.bind]
    by_cases c : x = y
    · rw [if_pos c, ih (i1 + 1) (i2 + 1) (by omega) (by omega)]
      subst c
      simp
    · rw [if_neg c]
      simp [pure, Except.pure, c]

theorem lt_spec [LinearOrder T] (a b : SimpleVector T)
    (ha : a.size_ ≤ a.vector_.extent) (hb : b.size_ ≤ b.vector_.extent) :
    lt a b = .ok (lexLess a.toList b.toList) := by
  unfold lt begin_ end_ toList
  rw [Nat.sub_zero, Nat.sub_zero,
    lexLoop_spec a.vector_ b.vector_ a.size_ 0 0 b.size_ (by omega) (by omega),
    List.drop_zero, List.drop_zero]

theorem eq_spec [DecidableEq T] (a b : SimpleVector T)
    (ha : a.size_ ≤ a.vector_.extent) (hb : b.size_ ≤ b.vector_.extent) :
    eq a b = .ok (decide (a.toList = b.toList)) := by
  unfold eq
  by_cases c : a.GetSize = b.GetSize
  · have c1 : a.size_ = b.size_ := c
    rw [if_pos c]
    unfold begin_ end_ toList
    rw [Nat.sub_zero,
      equalLoop_spec a.vector_ b.vector_ a.size_ 0 0 (by omega) (by omega),
      List.drop_zero, List.drop_zero, c1]
  · rw [if_neg c]
    have hne : a.toList ≠ b.toList := by
      intro h
      have h1 := length_toList a ha
      have h2 := length_toList b hb
      rw [h] at h1
      exact c (by show a.size_ = b.size_; omega)
    simp [pure, Except.pure, hne]

end SimpleVector

/-- The comparison operators on vectors whose blocks hold their `size` slots, over a
linearly ordered element type: `a < b` returns whether the logical sequence of `a` is lexicographically less
than that of `b` (nothing beyond `size` is read), and the other operators agree with it:
`a > b` is `b < a`, `a <= b` is the negation of `b < a`, `a >= b` is the negation of
`a < b`, `a == b` is equality of the logical sequences and `a != b` its negation. -/
theorem SimpleVector.comparison_operators_of_block {T : Type} [LinearOrder T] (a b : SimpleVector T)
    (ha : a.GetSize ≤ a.vector_.extent) (hb : b.GetSize ≤ b.vector_.extent) :
    a.lt b = .ok (SimpleVector.lexLess a.toList b.toList) ∧
    (SimpleVector.lexLess a.toList b.toList = true ↔ List.Lex (· < ·) a.toList b.toList) ∧
    a.gt b = .ok (SimpleVector.lexLess b.toList a.toList) ∧ a.gt b = b.lt a ∧
    a.le b = .ok (!SimpleVector.lexLess b.toList a.toList) ∧
    a.le b = (b.lt a).map (fun r => !r) ∧
    a.ge b = .ok (!SimpleVector.lexLess a.toList b.toList) ∧
    a.ge b = (a.lt b).map (fun r => !r) ∧
    a.eq b = .ok (decide (a.toList = b.toList)) ∧
    a.ne b = .ok (!decide (a.toList = b.toList)) ∧
    a.ne b = (a.eq b).map (fun r => !r) := by
  have hlt := SimpleVector.lt_spec a b ha hb
  have hgt := SimpleVector.lt_spec b a hb ha
  have heq := SimpleVector.eq_spec a b ha hb
  have hle : a.le b = .ok (!SimpleVector.lexLess b.toList a.toList) := by
    simp only [SimpleVector.le, hlt, heq, bind, Except.bind]
    cases h1 : SimpleVector.lexLess a.toList b.toList
    · cases h2 : SimpleVector.lexLess b.toList a.toList
      · have := SimpleVector.lexLess_total _ _ h1 h2
        simp [this]
      · have hne : a.toList ≠ b.toList := by
          intro h
          rw [h, SimpleVector.lexLess_irrefl] at h2
          cases h2
        simp [hne]
    · rw [SimpleVector.lexLess_asymm _ _ h1]
      rfl
  have hge : a.ge b = .ok (!SimpleVector.lexLess a.toList b.toList) := by
    simp only [SimpleVector.ge, hlt, heq, bind, Except.bind]
    by_cases h : a.toList = b.toList
    · rw [h, SimpleVector.lexLess_irrefl]
      simp [pure, Except.pure]
    · simp [h, pure, Except.pure]
  have hgt1 : a.gt b = .ok (SimpleVector.lexLess b.toList a.toList) := by
    simp only [SimpleVector.gt, hle, bind, Except.bind, pure, Except.pure, Bool.not_not]
  have hne : a.ne b = .ok (!decide (a.toList = b.toList)) := by
    simp only [SimpleVector.ne, heq, bind, Except.bind, pure, Except.pure]
  refine ⟨hlt, SimpleVector.lexLess_iff_lex _ _, hgt1, ?_, hle, ?_, hge, ?_, heq, hne, ?_⟩
  · rw [hgt1, hgt]
  · rw [hle, hgt]
    rfl
  · rw [hge, hlt]
    rfl
  · rw [hne, heq]
    rfl

/-! ## The claims -/

/-- C1: pushing the items of `xs` in order onto a default-constructed vector returns a
vector whose `GetSize()` is the length of `xs` and whose elements at the indices
`[0, size)`, also as read by a walk from `begin()` to `end()`, are `xs` in order. -/
theorem C1_pushBack_sequence {T : Type} [Elem T] (xs : List T) :
    ∃ w, (SimpleVector.empty : SimpleVector T).pushAll xs = .ok w ∧
      w.GetSize = xs.length ∧ w.toList = xs ∧ w.iterate = .ok xs := by
  obtain ⟨w, hw, hwf, hsz, hl⟩ := SimpleVector.pushAll_spec xs SimpleVector.empty
    SimpleVector.wf_empty
  have hl2 : w.toList = xs := by
    rw [hl]
    simp [SimpleVector.toList, SimpleVector.empty, ArrayPtr.cells, ArrayPtr.null]
  refine ⟨w, hw, ?_, hl2, ?_⟩
  · show w.size_ = xs.length
    rw [hsz]
    simp [SimpleVector.empty]
  · rw [SimpleVector.iterate_eq_toList w hwf.size_le_extent, hl2]

/-- C2: after `N` calls of `PushBack` (either overload, in any mix) on a
default-constructed vector, `GetCapacity()` is 0 when `N = 0` and else the least power
of two that is at least `N`; one more `PushBack` never lowers the capacity. -/
theorem C2_capacity_doubling {T : Type} [Elem T] (ps : List (Bool × T)) :
    ∃ w, (SimpleVector.empty : SimpleVector T).pushAllMixed ps = .ok w ∧
      (if ps.length = 0 then w.GetCapacity = 0
       else ∃ k, w.GetCapacity = 2 ^ k ∧ ps.length ≤ 2 ^ k ∧
         ∀ m, ps.length ≤ 2 ^ m → k ≤ m) ∧
      ∀ p, ∃ w1, (SimpleVector.empty : SimpleVector T).pushAllMixed (ps ++ [p]) = .ok w1 ∧
        w.GetCapacity ≤ w1.GetCapacity := by
  have h0 : SimpleVector.DoubledTo (SimpleVector.empty : SimpleVector T).size_
      (SimpleVector.empty : SimpleVector T).capacity_ := by
    simp [SimpleVector.DoubledTo, SimpleVector.empty]
  obtain ⟨w, hw, hwf, hsz, hd, _, _⟩ :=
    SimpleVector.pushAllMixed_spec ps SimpleVector.empty SimpleVector.wf_empty h0
  have hsz1 : w.size_ = ps.length := by
    rw [hsz]; simp [SimpleVector.empty]
  refine ⟨w, hw, ?_, ?_⟩
  · rw [hsz1] at hd
    exact hd
  · intro p
    obtain ⟨w1, hw1, _, _, _, hm, _⟩ := SimpleVector.pushAllMixed_spec [p] w hwf hd
    refine ⟨w1, ?_, hm⟩
    rw [SimpleVector.pushAllMixed_append, hw]
    exact hw1

/-- C3: on a well-formed vector with logical sequence `s`, `Insert(begin() + i, x)` with
`i ≤ size` (either overload, with spare capacity or not) returns normally; the new
sequence is the first `i` elements of `s`, then `x`, then the rest of `s`; the size
grows by one; the returned cursor is `begin() + i` and the slot it points at holds `x`. -/
theorem C3_insert_sequence {T : Type} [Elem T] (v : SimpleVector T) (i : Nat) (x : T)
    (h : v.WF) (hi : i ≤ v.GetSize) :
    ∃ w, v.Insert i x = .ok (w, i) ∧ v.InsertMove i x = .ok (w, i) ∧
      w.toList = v.toList.take i ++ [x] ++ v.toList.drop i ∧
      w.GetSize = v.GetSize + 1 ∧ w.toList[i]? = some x ∧ w.WF := by
  obtain ⟨w, hw, hwf, hsz, _, hl⟩ := SimpleVector.Insert_spec v i x h hi
  refine ⟨w, hw, hw, hl, hsz, ?_, hwf⟩
  rw [hl]
  apply SimpleVector.toList_insert_getElem?
  rw [SimpleVector.length_toList v h.size_le_extent]
  exact hi

/-- Witness of C3: inserting 9 at index 1 of the full vector `[1, 2]`. -/
theorem C3_insert_sequence_witness :
    (⟨2, 2, ⟨some [1, 2]⟩⟩ : SimpleVector Nat).WF ∧
    1 ≤ (⟨2, 2, ⟨some [1, 2]⟩⟩ : SimpleVector Nat).GetSize ∧
    ∃ w, (⟨2, 2, ⟨some [1, 2]⟩⟩ : SimpleVector Nat).Insert 1 9 = .ok (w, 1) ∧
      (⟨2, 2, ⟨some [1, 2]⟩⟩ : SimpleVector Nat).InsertMove 1 9 = .ok (w, 1) ∧
      w.toList = (⟨2, 2, ⟨some [1, 2]⟩⟩ : SimpleVector Nat).toList.take 1 ++ [9] ++
        (⟨2, 2, ⟨some [1, 2]⟩⟩ : SimpleVector Nat).toList.drop 1 ∧
      w.GetSize = (⟨2, 2, ⟨some [1, 2]⟩⟩ : SimpleVector Nat).GetSize + 1 ∧
      w.toList[1]? = some 9 ∧ w.WF :=
  ⟨by decide, by decide, C3_insert_sequence _ 1 9 (by decide) (by decide)⟩

/-- C4: on a well-formed vector with logical sequence `s`, `Erase(begin() + i)` with
`i < size` returns normally; the new sequence is `s` without its element at index `i`;
the size drops by one and the capacity stays; the returned cursor is `begin() + i`, which
now holds the element that followed the erased one, or is `end()` if the last was erased. -/
theorem C4_erase_sequence {T : Type} [Elem T] (v : SimpleVector T) (i : Nat)
    (h : v.WF) (hi : i < v.GetSize) :
    ∃ w, v.Erase i = .ok (w, i) ∧ w.toList = v.toList.eraseIdx i ∧
      w.GetSize = v.GetSize - 1 ∧ w.GetCapacity = v.GetCapacity ∧
      w.toList[i]? = v.toList[i + 1]? ∧ (i + 1 = v.GetSize → i = w.end_) ∧ w.WF := by
  obtain ⟨w, hw, hwf, hsz, hcap, hl⟩ := SimpleVector.Erase_spec v i h hi
  refine ⟨w, hw, hl, hsz, hcap, ?_, ?_, hwf⟩
  · have : ¬ i < i := by omega
    rw [hl, List.getElem?_eraseIdx, if_neg this]
  · intro hlast
    show i = w.size_
    have : v.GetSize = v.size_ := rfl
    omega

/-- Witness of C4: erasing index 1 of `[1, 2, 3]` held with capacity 4. -/
theorem C4_erase_sequence_witness :
    (⟨3, 4, ⟨some [1, 2, 3, 0]⟩⟩ : SimpleVector Nat).WF ∧
    1 < (⟨3, 4, ⟨some [1, 2, 3, 0]⟩⟩ : SimpleVector Nat).GetSize ∧
    ∃ w, (⟨3, 4, ⟨some [1, 2, 3, 0]⟩⟩ : SimpleVector Nat).Erase 1 = .ok (w, 1) ∧
      w.toList = (⟨3, 4, ⟨some [1, 2, 3, 0]⟩⟩ : SimpleVector Nat).toList.eraseIdx 1 ∧
      w.GetSize = (⟨3, 4, ⟨some [1, 2, 3, 0]⟩⟩ : SimpleVector Nat).GetSize - 1 ∧
      w.GetCapacity = (⟨3, 4, ⟨some [1, 2, 3, 0]⟩⟩ : SimpleVector Nat).GetCapacity ∧
      w.toList[1]? = (⟨3, 4, ⟨some [1, 2, 3, 0]⟩⟩ : SimpleVector Nat).toList[1 + 1]? ∧
      (1 + 1 = (⟨3, 4, ⟨some [1, 2, 3, 0]⟩⟩ : SimpleVector Nat).GetSize → 1 = w.end_) ∧
      w.WF :=
  ⟨by decide, by decide, C4_erase_sequence _ 1 (by decide) (by decide)⟩

/-- C5: on a well-formed vector, `Insert(end(), x)` and `PushBack(x)` both return
normally and leave the very same vector: same logical sequence (the old one followed by
`x`), same size and same capacity. -/
theorem C5_insert_end_is_pushBack {T : Type} [Elem T] (v : SimpleVector T) (x : T)
    (h : v.WF) :
    ∃ w1 w2 c, v.PushBack x = .ok w1 ∧ v.Insert v.end_ x = .ok (w2, c) ∧
      w1.toList = w2.toList ∧ w1.GetSize = w2.GetSize ∧ w1.GetCapacity = w2.GetCapacity ∧
      w1 = w2 ∧ w1.toList = v.toList ++ [x] ∧ w1.GetSize = v.GetSize + 1 := by
  obtain ⟨w, hw, _, hsz, _, hl⟩ := SimpleVector.PushBack_spec v x h
  refine ⟨w, w, v.end_, hw, ?_, rfl, rfl, rfl, rfl, hl, hsz⟩
  rw [SimpleVector.Insert_end_eq_PushBack, hw]
  rfl

/-- Witness of C5: the default-constructed vector, empty with capacity 0. -/
theorem C5_insert_end_is_pushBack_witness :
    (SimpleVector.empty : SimpleVector Nat).WF ∧
    ∃ w1 w2 c, (SimpleVector.empty : SimpleVector Nat).PushBack 7 = .ok w1 ∧
      (SimpleVector.empty : SimpleVector Nat).Insert
        (SimpleVector.empty : SimpleVector Nat).end_ 7 = .ok (w2, c) ∧
      w1.toList = w2.toList ∧ w1.GetSize = w2.GetSize ∧ w1.GetCapacity = w2.GetCapacity ∧
      w1 = w2 ∧ w1.toList = (SimpleVector.empty : SimpleVector Nat).toList ++ [7] ∧
      w1.GetSize = (SimpleVector.empty : SimpleVector Nat).GetSize + 1 :=
  ⟨by decide, C5_insert_end_is_pushBack _ 7 (by decide)⟩

/-- C6: on a well-formed vector with logical sequence `s` and `i < size`,
`Erase(begin() + i)` followed by `Insert(begin() + i, s[i])` returns normally and gives
back the sequence `s`, with the original size and the original capacity. -/
theorem C6_erase_then_insert {T : Type} [Elem T] (v : SimpleVector T) (i : Nat)
    (h : v.WF) (hi : i < v.GetSize) :
    ∃ x w1 w2, v.get i = .ok x ∧ v.Erase i = .ok (w1, i) ∧ w1.Insert i x = .ok (w2, i) ∧
      w2.toList = v.toList ∧ w2.GetSize = v.GetSize ∧ w2.GetCapacity = v.GetCapacity := by
  have hi1 : i < v.size_ := hi
  obtain ⟨x, hg, hx⟩ := SimpleVector.get_eq_toList v i h.size_le_extent hi
  obtain ⟨w1, he, hwf1, hsz1, hcap1, hl1⟩ := SimpleVector.Erase_spec v i h hi
  obtain ⟨w2, hins, _, hsz2, hcap2, hl2⟩ := SimpleVector.Insert_spec w1 i x hwf1 (by omega)
  have hle := h.1
  have hspare : w1.size_ < w1.capacity_ := by omega
  refine ⟨x, w1, w2, hg, he, hins, ?_, ?_, ?_⟩
  · rw [hl2, hl1]
    exact SimpleVector.eraseIdx_reinsert v.toList i x hx
  · show w2.size_ = v.size_
    omega
  · show w2.capacity_ = v.capacity_
    rw [hcap2, if_pos hspare, hcap1]

/-- Witness of C6: erasing and re-inserting index 0 of the full vector `[5, 6]`. -/
theorem C6_erase_then_insert_witness :
    (⟨2, 2, ⟨some [5, 6]⟩⟩ : SimpleVector Nat).WF ∧
    0 < (⟨2, 2, ⟨some [5, 6]⟩⟩ : SimpleVector Nat).GetSize ∧
    ∃ x w1 w2, (⟨2, 2, ⟨some [5, 6]⟩⟩ : SimpleVector Nat).get 0 = .ok x ∧
      (⟨2, 2, ⟨some [5, 6]⟩⟩ : SimpleVector Nat).Erase 0 = .ok (w1, 0) ∧
      w1.Insert 0 x = .ok (w2, 0) ∧
      w2.toList = (⟨2, 2, ⟨some [5, 6]⟩⟩ : SimpleVector Nat).toList ∧
      w2.GetSize = (⟨2, 2, ⟨some [5, 6]⟩⟩ : SimpleVector Nat).GetSize ∧
      w2.GetCapacity = (⟨2, 2, ⟨some [5, 6]⟩⟩ : SimpleVector Nat).GetCapacity :=
  ⟨by decide, by decide, C6_erase_then_insert _ 0 (by decide) (by decide)⟩

/-- C7: the constructor from an initializer list returns a vector whose size and
capacity are both the length of the list, and a walk from `begin()` to `end()` reads
exactly the items of the list in order. -/
theorem C7_initializer_list_round_trip {T : Type} [Elem T] (init : List T) :
    ∃ w, SimpleVector.ofList init = .ok w ∧ w.GetSize = init.length ∧
      w.GetCapacity = init.length ∧ w.iterate = .ok init ∧ w.toList = init ∧
      w.vector_.extent = init.length := by
  obtain ⟨w, hw, hwf, hsz, hcap, hl⟩ := SimpleVector.ofList_spec init
  refine ⟨w, hw, hsz, hcap, ?_, hl, ?_⟩
  · rw [SimpleVector.iterate_eq_toList w hwf.size_le_extent, hl]
  · rw [hwf.2, hcap]

/-- C8, the failing input: the vector built from the capacity hint `Reserve(5)` and then
resized to 3 is reachable, has size 3 and owns no block. `At(1)` passes the range check
(1 is below the size 3) and dereferences slot 1 of no block: it does not return an
element, and neither does `operator[]`; only at index 3 does `At` throw `out_of_range`.
The copy of `[1, 2, 3]` of capacity 4, resized to 4, has size 4 over a block of 3 slots,
and `At(3)` reads outside it. -/
theorem C8_at_below_size_outside_block :
    (SimpleVector.ofReserve (Reserve 5) : SimpleVector Nat).Resize 3 = .ok ⟨3, 5, ⟨none⟩⟩ ∧
    SimpleVector.Reachable (⟨3, 5, ⟨none⟩⟩ : SimpleVector Nat) ∧
    1 < (⟨3, 5, ⟨none⟩⟩ : SimpleVector Nat).GetSize ∧
    (⟨3, 5, ⟨none⟩⟩ : SimpleVector Nat).At 1 = .error .undefined ∧
    (⟨3, 5, ⟨none⟩⟩ : SimpleVector Nat).get 1 = .error .undefined ∧
    (⟨3, 5, ⟨none⟩⟩ : SimpleVector Nat).At 3 = .error .out_of_range ∧
    (⟨3, 4, ⟨some [1, 2, 3, 0]⟩⟩ : SimpleVector Nat).copy = .ok ⟨3, 4, ⟨some [1, 2, 3]⟩⟩ ∧
    (⟨3, 4, ⟨some [1, 2, 3]⟩⟩ : SimpleVector Nat).Resize 4 = .ok ⟨4, 4, ⟨some [1, 2, 3]⟩⟩ ∧
    3 < (⟨4, 4, ⟨some [1, 2, 3]⟩⟩ : SimpleVector Nat).GetSize ∧
    (⟨4, 4, ⟨some [1, 2, 3]⟩⟩ : SimpleVector Nat).At 3 = .error .undefined := by
  have hr : SimpleVector.Reachable (⟨3, 5, ⟨none⟩⟩ : SimpleVector Nat) :=
    SimpleVector.Reachable.op (.Resize 3) (SimpleVector.ofReserve (Reserve 5)) _
      (SimpleVector.Reachable.ctor (.reserve (Reserve 5)) _ rfl) trivial rfl
  exact ⟨by decide, hr, by decide, by decide, by decide, by decide, by decide, by decide,
    by decide, by decide⟩

/-- C9: on a well-formed vector, `Reserve(n)` with `n ≤ capacity` returns the vector as it
is; with `n > capacity` it returns normally a vector of capacity exactly `n`, of the same
size, with the same logical elements in the same order, whose block holds `n` slots. -/
theorem C9_reserve_frame {T : Type} [Elem T] (v : SimpleVector T) (n : Nat) (h : v.WF) :
    if n ≤ v.GetCapacity then v.Reserve n = .ok v
    else ∃ w, v.Reserve n = .ok w ∧ w.GetCapacity = n ∧ w.GetSize = v.GetSize ∧
      w.toList = v.toList ∧ w.vector_.extent = n := by
  have hle := h.1
  have hext := h.size_le_extent
  by_cases c : n ≤ v.GetCapacity
  · rw [if_pos c]
    exact SimpleVector.Reserve_noop v n c
  · rw [if_neg c]
    have c1 : v.capacity_ < n := by
      have : v.GetCapacity = v.capacity_ := rfl
      omega
    obtain ⟨w, hw, hsz, hcap, hex, hcells⟩ :=
      SimpleVector.Reserve_grow v n hext (by omega) c1
    refine ⟨w, hw, hcap, hsz, ?_, hex⟩
    apply SimpleVector.Reserve_grow_toList v w hsz
    intro j hj
    rw [hcells j, if_pos hj]

/-- Witness of C9: growing `[1, 2]` of capacity 2 to capacity 5. -/
theorem C9_reserve_frame_witness :
    (⟨2, 2, ⟨some [1, 2]⟩⟩ : SimpleVector Nat).WF ∧
    (if 5 ≤ (⟨2, 2, ⟨some [1, 2]⟩⟩ : SimpleVector Nat).GetCapacity then
      (⟨2, 2, ⟨some [1, 2]⟩⟩ : SimpleVector Nat).Reserve 5 = .ok ⟨2, 2, ⟨some [1, 2]⟩⟩
    else ∃ w, (⟨2, 2, ⟨some [1, 2]⟩⟩ : SimpleVector Nat).Reserve 5 = .ok w ∧
      w.GetCapacity = 5 ∧ w.GetSize = (⟨2, 2, ⟨some [1, 2]⟩⟩ : SimpleVector Nat).GetSize ∧
      w.toList = (⟨2, 2, ⟨some [1, 2]⟩⟩ : SimpleVector Nat).toList ∧
      w.vector_.extent = 5) :=
  ⟨by decide, C9_reserve_frame _ 5 (by decide)⟩

/-- C10, the failing input: `B` is `[1, 2, 3]` as three `PushBack` calls leave it (size 3,
capacity 4) and `A` is default-constructed. After `A = B` the comparison `A == B` is true,
but `A` records capacity 4 over a block of 3 slots, so `A.PushBack(4)` takes the
spare-capacity branch and writes slot 3, outside the block. -/
theorem C10_pushBack_after_copy_assign_overruns :
    (SimpleVector.empty : SimpleVector Nat).pushAll [1, 2, 3] = .ok ⟨3, 4, ⟨some [1, 2, 3, 0]⟩⟩ ∧
    ∃ a, (SimpleVector.empty : SimpleVector Nat).copyAssign ⟨3, 4, ⟨some [1, 2, 3, 0]⟩⟩ false
        = .ok a ∧
      SimpleVector.eq a ⟨3, 4, ⟨some [1, 2, 3, 0]⟩⟩ = .ok true ∧
      a.GetCapacity = 4 ∧ a.vector_.extent = 3 ∧ ¬ a.WF ∧
      a.PushBack 4 = .error .undefined ∧ a.PushBackMove 4 = .error .undefined := by
  refine ⟨by decide, ⟨3, 4, ⟨some [1, 2, 3]⟩⟩, by decide, by decide, by decide, by decide,
    by decide, by decide, by decide⟩

/-- C11: the move assignment `A = move(B)` between two objects gives `A` the former
size, capacity, block and so logical elements of `B`, and leaves `B` as a
default-constructed vector: size 0, capacity 0, no block. The move constructor does the
same for the object it builds and its source. -/
theorem C11_move_transfers_and_empties {T : Type} (a b : SimpleVector T) :
    (a.moveAssign b).1 = b ∧
    (a.moveAssign b).1.GetSize = b.GetSize ∧
    (a.moveAssign b).1.GetCapacity = b.GetCapacity ∧
    (a.moveAssign b).1.toList = b.toList ∧
    (a.moveAssign b).2 = SimpleVector.empty ∧
    (a.moveAssign b).2.GetSize = 0 ∧ (a.moveAssign b).2.GetCapacity = 0 ∧
    (a.moveAssign b).2.vector_.toBool = false ∧
    (SimpleVector.moveCtor b).1 = b ∧ (SimpleVector.moveCtor b).2 = SimpleVector.empty :=
  ⟨rfl, rfl, rfl, rfl, rfl, rfl, rfl, rfl, rfl, rfl⟩

/-- C12: `size ≤ capacity` holds after every constructor (default, sized, capacity hint,
sized with value, initializer list, copy, move), every public operation that returns
normally keeps it (`Clear`, `Resize`, `Reserve`, `PushBack`, `Insert`, `PopBack`, `Erase`,
element assignment; `swap`, copy and move assignment), so every vector a program can
reach has it; and on a well-formed vector each operation called within its precondition
does return normally. -/
theorem C12_size_le_capacity_invariant {T : Type} [Elem T] :
    (∀ c : SimpleVector.Ctor T, ∃ w, c.run = .ok w ∧ 0 ≤ w.GetSize ∧
      w.GetSize ≤ w.GetCapacity) ∧
    (∀ v : SimpleVector T, v.GetSize ≤ v.GetCapacity → v.GetSize ≤ v.vector_.extent →
      ∃ w, v.copy = .ok w ∧ w.GetSize ≤ w.GetCapacity) ∧
    (∀ v : SimpleVector T, v.GetSize ≤ v.GetCapacity →
      (SimpleVector.moveCtor v).1.GetSize ≤ (SimpleVector.moveCtor v).1.GetCapacity ∧
      (SimpleVector.moveCtor v).2.GetSize ≤ (SimpleVector.moveCtor v).2.GetCapacity) ∧
    (∀ (o : SimpleVector.Op T) (v w : SimpleVector T), v.GetSize ≤ v.GetCapacity →
      o.run v = .ok w → w.GetSize ≤ w.GetCapacity) ∧
    (∀ (o : SimpleVector.Op T) (v : SimpleVector T), v.WF → o.pre v →
      ∃ w, o.run v = .ok w ∧ w.GetSize ≤ w.GetCapacity) ∧
    (∀ v u : SimpleVector T, v.GetSize ≤ v.GetCapacity → u.GetSize ≤ u.GetCapacity →
      (v.swap u).1.GetSize ≤ (v.swap u).1.GetCapacity ∧
      (v.swap u).2.GetSize ≤ (v.swap u).2.GetCapacity ∧
      (v.moveAssign u).1.GetSize ≤ (v.moveAssign u).1.GetCapacity ∧
      (v.moveAssign u).2.GetSize ≤ (v.moveAssign u).2.GetCapacity) ∧
    (∀ v u : SimpleVector T, u.GetSize ≤ u.GetCapacity → u.GetSize ≤ u.vector_.extent →
      ∃ w, v.copyAssign u false = .ok w ∧ w.GetSize ≤ w.GetCapacity) ∧
    (∀ v : SimpleVector T, SimpleVector.Reachable v → 0 ≤ v.GetSize ∧
      v.GetSize ≤ v.GetCapacity) := by
  refine ⟨?_, ?_, ?_, ?_, ?_, ?_, ?_, ?_⟩
  · intro c
    obtain ⟨w, hw, hle⟩ := SimpleVector.Ctor.run_ok c
    exact ⟨w, hw, Nat.zero_le _, hle⟩
  · intro v hle hext
    obtain ⟨w, hw, hsz, hcap, _⟩ := SimpleVector.copy_spec v hext
    refine ⟨w, hw, ?_⟩
    show w.size_ ≤ w.capacity_
    rw [hsz, hcap]
    exact hle
  · intro v hle
    exact ⟨hle, Nat.le_refl 0⟩
  · intro o v w hle hr
    exact SimpleVector.Op.run_size_le o v w hle hr
  · intro o v hwf hp
    obtain ⟨w, hw, hwf1⟩ := SimpleVector.Op.run_of_wf o v hwf hp
    exact ⟨w, hw, hwf1.1⟩
  · intro v u hv hu
    exact ⟨hu, hv, hu, Nat.le_refl 0⟩
  · intro v u hle hext
    obtain ⟨w, hw, hsz, hcap, _⟩ := SimpleVector.copy_spec u hext
    refine ⟨w, ?_, ?_⟩
    · simp [SimpleVector.copyAssign, hw, SimpleVector.swap, ArrayPtr.swap, bind, Except.bind,
        pure, Except.pure]
    · show w.size_ ≤ w.capacity_
      rw [hsz, hcap]
      exact hle
  · intro v hv
    exact ⟨Nat.zero_le _, hv.size_le⟩

/-- Witness of C12: the vector built from the capacity hint 5 and resized to 3 is
reachable, and its size 3 is at most its capacity 5. -/
theorem C12_size_le_capacity_invariant_witness :
    SimpleVector.Reachable (⟨3, 5, ⟨none⟩⟩ : SimpleVector Nat) ∧
    0 ≤ (⟨3, 5, ⟨none⟩⟩ : SimpleVector Nat).GetSize ∧
    (⟨3, 5, ⟨none⟩⟩ : SimpleVector Nat).GetSize ≤
      (⟨3, 5, ⟨none⟩⟩ : SimpleVector Nat).GetCapacity :=
  have hr : SimpleVector.Reachable (⟨3, 5, ⟨none⟩⟩ : SimpleVector Nat) :=
    SimpleVector.Reachable.op (.Resize 3) (SimpleVector.ofReserve (Reserve 5)) _
      (SimpleVector.Reachable.ctor (.reserve (Reserve 5)) _ rfl) trivial rfl
  ⟨hr, (C12_size_le_capacity_invariant (T := Nat)).2.2.2.2.2.2.2 _ hr⟩

/-- C13, the failing input: the vector built from the capacity hint `Reserve(5)` has
size 0 and records capacity 5, but owns no block at all (for every hint the block has 0
slots, since it is sized by `size_`); its first `PushBack` takes the spare-capacity
branch and writes slot 0 of no block. -/
theorem C13_capacity_hint_allocates_nothing :
    (SimpleVector.ofReserve (Reserve 5) : SimpleVector Nat).GetSize = 0 ∧
    (SimpleVector.ofReserve (Reserve 5) : SimpleVector Nat).GetCapacity = 5 ∧
    (SimpleVector.ofReserve (Reserve 5) : SimpleVector Nat).vector_.extent = 0 ∧
    (SimpleVector.ofReserve (Reserve 5) : SimpleVector Nat).vector_.toBool = false ∧
    (∀ n, (SimpleVector.ofReserve (Reserve n) : SimpleVector Nat).vector_.extent = 0) ∧
    (SimpleVector.ofReserve (Reserve 5) : SimpleVector Nat).PushBack 1
      = .error .undefined :=
  ⟨rfl, rfl, rfl, rfl, fun _ => rfl, rfl⟩

/-- C14, the failing input: copying the well-formed vector `[1, 2, 3]` of capacity 4
gives size 3, the elements `[1, 2, 3]` and a recorded capacity 4 over a block of only 3
slots; in general the block of a copy holds `size` slots of the source, not `capacity`. -/
theorem C14_copy_block_has_size_slots :
    (⟨3, 4, ⟨some [1, 2, 3, 0]⟩⟩ : SimpleVector Nat).WF ∧
    (⟨3, 4, ⟨some [1, 2, 3, 0]⟩⟩ : SimpleVector Nat).copy = .ok ⟨3, 4, ⟨some [1, 2, 3]⟩⟩ ∧
    (⟨3, 4, ⟨some [1, 2, 3]⟩⟩ : SimpleVector Nat).GetCapacity = 4 ∧
    (⟨3, 4, ⟨some [1, 2, 3]⟩⟩ : SimpleVector Nat).vector_.extent = 3 ∧
    (∀ v : SimpleVector Nat, v.WF → ∃ w, v.copy = .ok w ∧ w.GetSize = v.GetSize ∧
      w.toList = v.toList ∧ w.GetCapacity = v.GetCapacity ∧
      w.vector_.extent = v.GetSize) := by
  refine ⟨by decide, by decide, rfl, rfl, ?_⟩
  intro v h
  obtain ⟨w, hw, hsz, hcap, hext, _, hl⟩ := SimpleVector.copy_spec v h.size_le_extent
  exact ⟨w, hw, hsz, hl, hcap, hext⟩

/-- C15, the failing input: `[1, 2, 3]` built from an initializer list, then `Resize(1)`,
then `Resize(3)`. The two new elements, at the indices 1 and 2, are the stale 2 and 3,
not the default value 0. The same holds after `PopBack` followed by `Resize`. -/
theorem C15_resize_up_reuses_stale_slots :
    (SimpleVector.ofList [1, 2, 3] : Except Fault (SimpleVector Nat))
      = .ok ⟨3, 3, ⟨some [1, 2, 3]⟩⟩ ∧
    (⟨3, 3, ⟨some [1, 2, 3]⟩⟩ : SimpleVector Nat).Resize 1 = .ok ⟨1, 3, ⟨some [1, 2, 3]⟩⟩ ∧
    SimpleVector.Reachable (⟨1, 3, ⟨some [1, 2, 3]⟩⟩ : SimpleVector Nat) ∧
    (⟨1, 3, ⟨some [1, 2, 3]⟩⟩ : SimpleVector Nat).Resize 3 = .ok ⟨3, 3, ⟨some [1, 2, 3]⟩⟩ ∧
    (⟨3, 3, ⟨some [1, 2, 3]⟩⟩ : SimpleVector Nat).get 1 = .ok 2 ∧
    (⟨3, 3, ⟨some [1, 2, 3]⟩⟩ : SimpleVector Nat).get 2 = .ok 3 ∧
    (Elem.dflt : Nat) = 0 ∧
    (⟨3, 3, ⟨some [1, 2, 3]⟩⟩ : SimpleVector Nat).PopBack = .ok ⟨2, 3, ⟨some [1, 2, 3]⟩⟩ ∧
    (⟨2, 3, ⟨some [1, 2, 3]⟩⟩ : SimpleVector Nat).Resize 3 = .ok ⟨3, 3, ⟨some [1, 2, 3]⟩⟩ := by
  refine ⟨by decide, by decide, ?_, by decide, by decide, by decide, rfl, by decide, by decide⟩
  exact SimpleVector.Reachable.op (.Resize 1) ⟨3, 3, ⟨some [1, 2, 3]⟩⟩ _
    (SimpleVector.Reachable.ctor (.list [1, 2, 3]) _ (by decide)) trivial (by decide)

/-- C16: on a well-formed vector `Resize(n)` returns normally with size `n`; the first
`min(n, old size)` logical elements are unchanged; the capacity is unchanged when
`n ≤ old capacity` (and so is the block: nothing is reallocated) and is
`max(n, 2 × old capacity)` otherwise. Hence `Resize(k)` with `k ≤ size` followed by
`Resize(old size)` gives back the same capacity and the same block. -/
theorem C16_resize_size_and_capacity {T : Type} [Elem T] (v : SimpleVector T) (n : Nat)
    (h : v.WF) :
    (∃ w, v.Resize n = .ok w ∧ w.GetSize = n ∧
      w.toList.take (min n v.GetSize) = v.toList.take (min n v.GetSize) ∧
      w.GetCapacity = (if n ≤ v.GetCapacity then v.GetCapacity
        else max n (2 * v.GetCapacity)) ∧
      (n ≤ v.GetCapacity → w.vector_ = v.vector_)) ∧
    (n ≤ v.GetSize → ∃ w1 w2, v.Resize n = .ok w1 ∧ w1.Resize v.GetSize = .ok w2 ∧
      w2.GetCapacity = v.GetCapacity ∧ w2.vector_ = v.vector_ ∧ w2.GetSize = v.GetSize) := by
  obtain ⟨w, hw, hwf, hsz, hcap, hsame, hcells⟩ := SimpleVector.Resize_spec v n h
  constructor
  · refine ⟨w, hw, hsz, ?_, hcap, hsame⟩
    apply List.ext_getElem?
    intro j
    rw [List.getElem?_take, List.getElem?_take, SimpleVector.toList_getElem?,
      SimpleVector.toList_getElem?, hsz]
    have e : v.GetSize = v.size_ := rfl
    by_cases c : j < min n v.GetSize
    · have c1 : j < n := by omega
      have c2 : j < v.size_ := by omega
      rw [if_pos c, if_pos c, if_pos c1, if_pos c2, hcells j c2]
    · rw [if_neg c, if_neg c]
  · intro hle
    have e : v.GetSize = v.size_ := rfl
    have h1 := h.1
    have hn : n ≤ v.capacity_ := by omega
    rw [if_pos hn] at hcap
    obtain ⟨w2, hw2, _, hsz2, hcap2, hsame2, _⟩ := SimpleVector.Resize_spec w v.GetSize hwf
    have hn2 : v.GetSize ≤ w.capacity_ := by omega
    rw [if_pos hn2] at hcap2
    refine ⟨w, w2, hw, hw2, ?_, ?_, hsz2⟩
    · show w2.capacity_ = v.capacity_
      omega
    · rw [hsame2 hn2, hsame hn]

/-- Witness of C16: `[1, 2, 3]` of capacity 4 resized down to 1. -/
theorem C16_resize_size_and_capacity_witness :
    (⟨3, 4, ⟨some [1, 2, 3, 0]⟩⟩ : SimpleVector Nat).WF ∧
    ((∃ w, (⟨3, 4, ⟨some [1, 2, 3, 0]⟩⟩ : SimpleVector Nat).Resize 1 = .ok w ∧
      w.GetSize = 1 ∧
      w.toList.take (min 1 (⟨3, 4, ⟨some [1, 2, 3, 0]⟩⟩ : SimpleVector Nat).GetSize) =
        (⟨3, 4, ⟨some [1, 2, 3, 0]⟩⟩ : SimpleVector Nat).toList.take
          (min 1 (⟨3, 4, ⟨some [1, 2, 3, 0]⟩⟩ : SimpleVector Nat).GetSize) ∧
      w.GetCapacity =
        (if 1 ≤ (⟨3, 4, ⟨some [1, 2, 3, 0]⟩⟩ : SimpleVector Nat).GetCapacity then
          (⟨3, 4, ⟨some [1, 2, 3, 0]⟩⟩ : SimpleVector Nat).GetCapacity
        else max 1 (2 * (⟨3, 4, ⟨some [1, 2, 3, 0]⟩⟩ : SimpleVector Nat).GetCapacity)) ∧
      (1 ≤ (⟨3, 4, ⟨some [1, 2, 3, 0]⟩⟩ : SimpleVector Nat).GetCapacity →
        w.vector_ = (⟨3, 4, ⟨some [1, 2, 3, 0]⟩⟩ : SimpleVector Nat).vector_)) ∧
    (1 ≤ (⟨3, 4, ⟨some [1, 2, 3, 0]⟩⟩ : SimpleVector Nat).GetSize →
      ∃ w1 w2, (⟨3, 4, ⟨some [1, 2, 3, 0]⟩⟩ : SimpleVector Nat).Resize 1 = .ok w1 ∧
        w1.Resize (⟨3, 4, ⟨some [1, 2, 3, 0]⟩⟩ : SimpleVector Nat).GetSize = .ok w2 ∧
        w2.GetCapacity = (⟨3, 4, ⟨some [1, 2, 3, 0]⟩⟩ : SimpleVector Nat).GetCapacity ∧
        w2.vector_ = (⟨3, 4, ⟨some [1, 2, 3, 0]⟩⟩ : SimpleVector Nat).vector_ ∧
        w2.GetSize = (⟨3, 4, ⟨some [1, 2, 3, 0]⟩⟩ : SimpleVector Nat).GetSize)) :=
  ⟨by decide, C16_resize_size_and_capacity _ 1 (by decide)⟩

/-- C17: on a well-formed vector, `Insert` at a cursor in `[begin, end]` (either
overload) returns normally; if the vector was full the capacity becomes 1 when it was 0
and twice the old capacity otherwise; if there was spare capacity it is unchanged. -/
theorem C17_insert_capacity {T : Type} [Elem T] (v : SimpleVector T) (i : Nat) (x : T)
    (h : v.WF) (hi : i ≤ v.GetSize) :
    ∃ w, v.Insert i x = .ok (w, i) ∧ v.InsertMove i x = .ok (w, i) ∧
      (v.GetSize = v.GetCapacity → v.GetCapacity = 0 → w.GetCapacity = 1) ∧
      (v.GetSize = v.GetCapacity → v.GetCapacity ≠ 0 → w.GetCapacity = 2 * v.GetCapacity) ∧
      (v.GetSize < v.GetCapacity → w.GetCapacity = v.GetCapacity) := by
  obtain ⟨w, hw, _, _, hcap, _⟩ := SimpleVector.Insert_spec v i x h hi
  have e1 : v.GetSize = v.size_ := rfl
  have e2 : v.GetCapacity = v.capacity_ := rfl
  refine ⟨w, hw, hw, ?_, ?_, ?_⟩
  · intro hf h0
    have c : ¬ v.size_ < v.capacity_ := by omega
    have c0 : v.capacity_ = 0 := h0
    show w.capacity_ = 1
    rw [hcap, if_neg c, if_pos c0]
  · intro hf h0
    have c : ¬ v.size_ < v.capacity_ := by omega
    have c0 : ¬ v.capacity_ = 0 := h0
    show w.capacity_ = 2 * v.capacity_
    rw [hcap, if_neg c, if_neg c0]
  · intro hs
    have c : v.size_ < v.capacity_ := hs
    show w.capacity_ = v.capacity_
    rw [hcap, if_pos c]

/-- Witness of C17: inserting into the full vector `[1, 2]`, whose capacity doubles. -/
theorem C17_insert_capacity_witness :
    (⟨2, 2, ⟨some [1, 2]⟩⟩ : SimpleVector Nat).WF ∧
    0 ≤ (⟨2, 2, ⟨some [1, 2]⟩⟩ : SimpleVector Nat).GetSize ∧
    ∃ w, (⟨2, 2, ⟨some [1, 2]⟩⟩ : SimpleVector Nat).Insert 0 9 = .ok (w, 0) ∧
      (⟨2, 2, ⟨some [1, 2]⟩⟩ : SimpleVector Nat).InsertMove 0 9 = .ok (w, 0) ∧
      ((⟨2, 2, ⟨some [1, 2]⟩⟩ : SimpleVector Nat).GetSize =
          (⟨2, 2, ⟨some [1, 2]⟩⟩ : SimpleVector Nat).GetCapacity →
        (⟨2, 2, ⟨some [1, 2]⟩⟩ : SimpleVector Nat).GetCapacity = 0 → w.GetCapacity = 1) ∧
      ((⟨2, 2, ⟨some [1, 2]⟩⟩ : SimpleVector Nat).GetSize =
          (⟨2, 2, ⟨some [1, 2]⟩⟩ : SimpleVector Nat).GetCapacity →
        (⟨2, 2, ⟨some [1, 2]⟩⟩ : SimpleVector Nat).GetCapacity ≠ 0 →
        w.GetCapacity = 2 * (⟨2, 2, ⟨some [1, 2]⟩⟩ : SimpleVector Nat).GetCapacity) ∧
      ((⟨2, 2, ⟨some [1, 2]⟩⟩ : SimpleVector Nat).GetSize <
          (⟨2, 2, ⟨some [1, 2]⟩⟩ : SimpleVector Nat).GetCapacity →
        w.GetCapacity = (⟨2, 2, ⟨some [1, 2]⟩⟩ : SimpleVector Nat).GetCapacity) :=
  ⟨by decide, by decide, C17_insert_capacity _ 0 9 (by decide) (by decide)⟩

/-- C19: the two `PushBack` overloads compute the same result on every vector, and so do
the two `Insert` overloads at every cursor; on a well-formed vector both `PushBack`
overloads return normally the same vector (same size, capacity and logical elements),
and so do both `Insert` overloads at every cursor in `[begin, end]`. -/
theorem C19_overloads_agree {T : Type} [Elem T] (v : SimpleVector T) (x : T) (h : v.WF) :
    v.PushBackMove x = v.PushBack x ∧
    (∃ w, v.PushBack x = .ok w ∧ v.PushBackMove x = .ok w ∧ w.GetSize = v.GetSize + 1 ∧
      w.toList = v.toList ++ [x]) ∧
    ∀ i, v.InsertMove i x = v.Insert i x ∧
      (i ≤ v.GetSize → ∃ w, v.Insert i x = .ok (w, i) ∧ v.InsertMove i x = .ok (w, i) ∧
        w.GetSize = v.GetSize + 1 ∧ w.toList = v.toList.take i ++ [x] ++ v.toList.drop i) := by
  refine ⟨SimpleVector.PushBackMove_eq_PushBack v x, ?_, ?_⟩
  · obtain ⟨w, hw, _, hsz, _, hl⟩ := SimpleVector.PushBack_spec v x h
    refine ⟨w, hw, ?_, hsz, hl⟩
    rw [SimpleVector.PushBackMove_eq_PushBack, hw]
  · intro i
    refine ⟨rfl, ?_⟩
    intro hi
    obtain ⟨w, hw, _, hsz, _, hl⟩ := SimpleVector.Insert_spec v i x h hi
    exact ⟨w, hw, hw, hsz, hl⟩

/-- Witness of C19: the full vector `[1, 2]`, where both overloads have to grow. -/
theorem C19_overloads_agree_witness :
    (⟨2, 2, ⟨some [1, 2]⟩⟩ : SimpleVector Nat).WF ∧
    (⟨2, 2, ⟨some [1, 2]⟩⟩ : SimpleVector Nat).PushBackMove 7 =
      (⟨2, 2, ⟨some [1, 2]⟩⟩ : SimpleVector Nat).PushBack 7 ∧
    (∃ w, (⟨2, 2, ⟨some [1, 2]⟩⟩ : SimpleVector Nat).PushBack 7 = .ok w ∧
      (⟨2, 2, ⟨some [1, 2]⟩⟩ : SimpleVector Nat).PushBackMove 7 = .ok w ∧
      w.GetSize = (⟨2, 2, ⟨some [1, 2]⟩⟩ : SimpleVector Nat).GetSize + 1 ∧
      w.toList = (⟨2, 2, ⟨some [1, 2]⟩⟩ : SimpleVector Nat).toList ++ [7]) ∧
    ∀ i, (⟨2, 2, ⟨some [1, 2]⟩⟩ : SimpleVector Nat).InsertMove i 7 =
        (⟨2, 2, ⟨some [1, 2]⟩⟩ : SimpleVector Nat).Insert i 7 ∧
      (i ≤ (⟨2, 2, ⟨some [1, 2]⟩⟩ : SimpleVector Nat).GetSize →
        ∃ w, (⟨2, 2, ⟨some [1, 2]⟩⟩ : SimpleVector Nat).Insert i 7 = .ok (w, i) ∧
          (⟨2, 2, ⟨some [1, 2]⟩⟩ : SimpleVector Nat).InsertMove i 7 = .ok (w, i) ∧
          w.GetSize = (⟨2, 2, ⟨some [1, 2]⟩⟩ : SimpleVector Nat).GetSize + 1 ∧
          w.toList = (⟨2, 2, ⟨some [1, 2]⟩⟩ : SimpleVector Nat).toList.take i ++ [7] ++
            (⟨2, 2, ⟨some [1, 2]⟩⟩ : SimpleVector Nat).toList.drop i) :=
  ⟨by decide, C19_overloads_agree _ 7 (by decide)⟩

/-- C20, the failing inputs. The vector built from the capacity hint `Reserve(5)` is
reachable, has size 0 below capacity 5 and a block of 0 slots: `PushBack` and `Insert`
at `begin()` write slot 0 outside it. The copy of `[1, 2, 3]` of capacity 4 is reachable,
has size 3 below capacity 4 and a block of 3 slots: `PushBack` writes slot 3 and
`Insert` at `begin()` moves into slot 3, both outside it. -/
theorem C20_access_outside_the_block :
    SimpleVector.Reachable (SimpleVector.ofReserve (Reserve 5) : SimpleVector Nat) ∧
    (SimpleVector.ofReserve (Reserve 5) : SimpleVector Nat).GetSize <
      (SimpleVector.ofReserve (Reserve 5) : SimpleVector Nat).GetCapacity ∧
    (SimpleVector.ofReserve (Reserve 5) : SimpleVector Nat).vector_.extent = 0 ∧
    (SimpleVector.ofReserve (Reserve 5) : SimpleVector Nat).PushBack 1
      = .error .undefined ∧
    (SimpleVector.ofReserve (Reserve 5) : SimpleVector Nat).PushBackMove 1
      = .error .undefined ∧
    (SimpleVector.ofReserve (Reserve 5) : SimpleVector Nat).Insert 0 1
      = .error .undefined ∧
    SimpleVector.Reachable (⟨3, 4, ⟨some [1, 2, 3]⟩⟩ : SimpleVector Nat) ∧
    (⟨3, 4, ⟨some [1, 2, 3]⟩⟩ : SimpleVector Nat).vector_.extent = 3 ∧
    (⟨3, 4, ⟨some [1, 2, 3]⟩⟩ : SimpleVector Nat).PushBack 4 = .error .undefined ∧
    (⟨3, 4, ⟨some [1, 2, 3]⟩⟩ : SimpleVector Nat).Insert 0 4 = .error .undefined := by
  have r0 : SimpleVector.Reachable (SimpleVector.empty : SimpleVector Nat) :=
    SimpleVector.Reachable.ctor .dflt _ rfl
  have r1 : SimpleVector.Reachable (⟨1, 1, ⟨some [1]⟩⟩ : SimpleVector Nat) :=
    SimpleVector.Reachable.op (.PushBack 1) _ _ r0 trivial (by decide)
  have r2 : SimpleVector.Reachable (⟨2, 2, ⟨some [1, 2]⟩⟩ : SimpleVector Nat) :=
    SimpleVector.Reachable.op (.PushBack 2) _ _ r1 trivial (by decide)
  have r3 : SimpleVector.Reachable (⟨3, 4, ⟨some [1, 2, 3, 0]⟩⟩ : SimpleVector Nat) :=
    SimpleVector.Reachable.op (.PushBack 3) _ _ r2 trivial (by decide)
  have r4 : SimpleVector.Reachable (⟨3, 4, ⟨some [1, 2, 3]⟩⟩ : SimpleVector Nat) :=
    SimpleVector.Reachable.copyCtor _ _ r3 (by decide)
  exact ⟨SimpleVector.Reachable.ctor (.reserve (Reserve 5)) _ rfl, by decide, rfl,
    by decide, by decide, by decide, r4, rfl, by decide, by decide⟩

/-- C18, the failing input: `a` is built from the capacity hint `Reserve(5)` and resized
to 3 (reachable, size 3, no block) and `b` is `[1, 2, 3]`. Every comparison of the two
walks the 3 slots of `a` and reads slot 0 of no block, so none returns a truth value.
On vectors whose blocks hold their elements the operators do order lexicographically:
`[1, 2] < [1, 2, 3]` and `[1, 3] > [1, 2, 9]` both return true. -/
theorem C18_comparison_reads_outside_block :
    SimpleVector.Reachable (⟨3, 5, ⟨none⟩⟩ : SimpleVector Nat) ∧
    (SimpleVector.ofList [1, 2, 3] : Except Fault (SimpleVector Nat))
      = .ok ⟨3, 3, ⟨some [1, 2, 3]⟩⟩ ∧
    (⟨3, 5, ⟨none⟩⟩ : SimpleVector Nat).lt ⟨3, 3, ⟨some [1, 2, 3]⟩⟩ = .error .undefined ∧
    (⟨3, 3, ⟨some [1, 2, 3]⟩⟩ : SimpleVector Nat).lt ⟨3, 5, ⟨none⟩⟩ = .error .undefined ∧
    (⟨3, 5, ⟨none⟩⟩ : SimpleVector Nat).gt ⟨3, 3, ⟨some [1, 2, 3]⟩⟩ = .error .undefined ∧
    (⟨3, 5, ⟨none⟩⟩ : SimpleVector Nat).le ⟨3, 3, ⟨some [1, 2, 3]⟩⟩ = .error .undefined ∧
    (⟨3, 5, ⟨none⟩⟩ : SimpleVector Nat).ge ⟨3, 3, ⟨some [1, 2, 3]⟩⟩ = .error .undefined ∧
    (⟨3, 5, ⟨none⟩⟩ : SimpleVector Nat).eq ⟨3, 3, ⟨some [1, 2, 3]⟩⟩ = .error .undefined ∧
    (⟨3, 5, ⟨none⟩⟩ : SimpleVector Nat).ne ⟨3, 3, ⟨some [1, 2, 3]⟩⟩ = .error .undefined ∧
    (⟨2, 2, ⟨some [1, 2]⟩⟩ : SimpleVector Nat).lt ⟨3, 3, ⟨some [1, 2, 3]⟩⟩ = .ok true ∧
    (⟨2, 2, ⟨some [1, 3]⟩⟩ : SimpleVector Nat).gt ⟨3, 3, ⟨some [1, 2, 9]⟩⟩ = .ok true := by
  have hr : SimpleVector.Reachable (⟨3, 5, ⟨none⟩⟩ : SimpleVector Nat) :=
    SimpleVector.Reachable.op (.Resize 3) (SimpleVector.ofReserve (Reserve 5)) _
      (SimpleVector.Reachable.ctor (.reserve (Reserve 5)) _ rfl) trivial rfl
  exact ⟨hr, by decide, by decide, by decide, by decide, by decide, by decide, by decide,
    by decide, by decide, by decide⟩
